import Mathlib

/-!
Verification of the parallel streaming array decoder of `edsm-dumps-model`
(`src/array_decoder.rs` and `src/array_decoder/parallel.rs`).

The embedding works over `List Char` byte/character streams.  A dump file is a
character list; lines are split on `'\n'` exactly as Rust's `BufRead::read_line`
does (the terminator is kept, the final line may lack one).

The per-record decode (`RootEntry::pre_filter` followed by `serde_json::from_str`)
is a pure function of the normalized line string handed to it, identically in the
single-threaded decoder (`ArrayDecoder::read_entry`) and in the parallel worker
(`ChunkParser::parse_chunk`).  The claims under study compare record *sequences*
coming out of the two pipelines with each other and with the line sequence of the
input, so records are modelled as the normalized line strings themselves; any
pure decode function applied to both sides preserves every equality and every
inequality proved here.  Decode/IO failures enter the collector and the facade as
an abstract error type `E`, mirroring the generic `collect<T>` of the source.
-/

namespace EdsmArrayDecoder

/-- Unicode-whitespace test restricted to the characters that occur in dump
files; mirrors the behaviour of Rust's `str::trim` on them. -/
def isWS (c : Char) : Bool :=
  c = ' ' || c = '\t' || c = '\n' || c = '\r'

/-- Remove trailing characters satisfying `p` (helper for `str::trim` /
`str::trim_end_matches`). -/
def dropWhileEnd (p : Char → Bool) (s : List Char) : List Char :=
  (s.reverse.dropWhile p).reverse

/-- Embedding of Rust `str::trim`: strip leading and trailing whitespace. -/
def trim (s : List Char) : List Char :=
  dropWhileEnd isWS (s.dropWhile isWS)

/-- Embedding of `str::trim_end_matches(',')`: repeatedly remove a trailing
`','` (so *all* trailing commas are removed). -/
def trimCommas (s : List Char) : List Char :=
  dropWhileEnd (fun c => c = ',') s

/-- Split a character stream into lines the way `BufRead::read_line` yields
them: every line keeps its trailing `'\n'`; the final line may lack one;
an empty stream yields no lines. -/
def splitLines : List Char → List (List Char)
  | [] => []
  | c :: t =>
    if c = '\n' then ['\n'] :: splitLines t
    else
      match splitLines t with
      | [] => [[c]]
      | l :: ls => (c :: l) :: ls

/-- Rebuild a stream from newline-free line bodies, terminating each with
`'\n'`. -/
def unlines (ls : List (List Char)) : List Char :=
  (ls.map (fun l => l ++ ['\n'])).flatten

/-!  ## ChunkParser (`parallel.rs` lines 178-213)

`parse_chunk` reads the block line by line (`bs.read_line`), trims each line,
skips a `"["` line, stops at a `"]"` line, strips trailing commas, skips blank
remainders and decodes the rest.  `parseLines` is the loop over the lines of
one block, `parseChunk` is `parse_chunk` itself.  (The `max_values_len`
capacity hint of the struct does not influence the output.) -/

def parseLines : List (List Char) → List (List Char)
  | [] => []
  | l :: ls =>
    -- `s = trim l` in the source; a `"["` line is skipped, a `"]"` line stops
    -- the loop, blank remainders are skipped, the rest is decoded
    if trim l = ['['] then parseLines ls
    else if trim l = [']'] then []
    else if trimCommas (trim l) = [] then parseLines ls
    else trimCommas (trim l) :: parseLines ls

/-- `ChunkParser::parse_chunk` on one byte block. -/
def parseChunk (bs : List Char) : List (List Char) :=
  parseLines (splitLines bs)

/-!  ## ChunkReader (`parallel.rs` lines 255-319)

A `ChunkReader` holds the wrapped stream and a `left_buf`/`left_size` carry.
Each `read_chunk` call copies the leftover to the front of a `chunk_size`
buffer (the `swap`) and fills the rest from the stream, so one call operates
on the front of `leftover ++ remaining-stream`; `chunkStep` performs one such
call on that concatenation, returning the emitted block and the new
`leftover ++ remaining-stream` state.  `total_read` is `min` of the available
bytes and `chunk_size` because the read loop stops only on a full buffer or
end of stream. -/

/-- The backward scan of `read_chunk` (lines 300-313): the largest position
`p` with `1 ≤ p`, `p ≤ start` and `buf[p] = '\n'`; the loop guard
`split_pos > 0` never inspects position `0`. -/
def lastNLScan (buf : List Char) : Nat → Option Nat
  | 0 => none
  | p + 1 =>
    if buf.getD (p + 1) ' ' = '\n' then some (p + 1) else lastNLScan buf p

/-- Where `read_chunk` splits a full buffer: the last newline at a position
`≥ 1`, scanning from `total_read - 1` downwards. -/
def findSplitPos (buf : List Char) : Option Nat :=
  lastNLScan buf (buf.length - 1)

/-- One `read_chunk` call on the logical state `avail = left_buf content ++
remaining stream`.  Returns `none` at end of stream, otherwise the emitted
block and the remaining logical state. -/
def chunkStep (cs : Nat) (avail : List Char) : Option (List Char × List Char) :=
  -- `total_read = min avail.length cs`; the full buffer is `buf = avail.take cs`
  if min avail.length cs = 0 then none
  else if min avail.length cs < cs then
    -- final chunk (lines 293-298): emit the filled prefix verbatim
    some (avail.take (min avail.length cs), avail.drop (min avail.length cs))
  else
    match findSplitPos (avail.take cs) with
    | some p => some ((avail.take cs).take (p + 1), avail.drop (p + 1))
    | none => some (avail.take cs, avail.drop cs)

/-- Fuelled iteration of `read_chunk` until it returns `None` (the reader
thread's loop, lines 109-128).  `avail.length + 1` fuel always suffices. -/
def readBlocksF : Nat → Nat → List Char → List (List Char)
  | 0, _, _ => []
  | fuel + 1, cs, avail =>
    match chunkStep cs avail with
    | none => []
    | some (b, rest) => b :: readBlocksF fuel cs rest

/-- All blocks emitted by a `ChunkReader` over the stream `avail` with chunk
size `cs`. -/
def readBlocks (cs : Nat) (avail : List Char) : List (List Char) :=
  readBlocksF (avail.length + 1) cs avail

/-- `INPUT_CHUNK_SIZE` (`parallel.rs` line 17). -/
def INPUT_CHUNK_SIZE : Nat := 8 * 1024 * 1024

/-- The indexed batches produced by the worker stage: block `i` of the file
decodes (by any worker, deterministically) to `parseChunk` of its bytes. -/
def pipelineBatches (input : List Char) : List (List (List Char)) :=
  (readBlocks INPUT_CHUNK_SIZE input).map parseChunk

/-!  ## Collector (`parallel.rs` lines 216-245)

`collect` receives `(idx, result)` pairs, inserts them into a `BTreeMap`
(`holding`), and after each arrival drains consecutive indices starting from
`next`, forwarding `Ok` batches and stopping for good at the first `Err`.
When the inbound channel closes it simply returns.  The map is embedded as an
association list with `BTreeMap`-style insert (replace) and remove. -/

def lookupKey {α : Type} (k : Nat) : List (Nat × α) → Option α
  | [] => none
  | (i, v) :: t => if i = k then some v else lookupKey k t

def eraseKey {α : Type} (k : Nat) : List (Nat × α) → List (Nat × α)
  | [] => []
  | (i, v) :: t => if i = k then t else (i, v) :: eraseKey k t

def insertKey {α : Type} (k : Nat) (v : α) (h : List (Nat × α)) : List (Nat × α) :=
  (k, v) :: eraseKey k h

def keysOf {α : Type} (h : List (Nat × α)) : List Nat :=
  h.map Prod.fst

/-- Result of the inner `while let Some(r) = holding.remove(&next)` drain
loop: the values sent, the remaining map, the new `next`, and whether the
loop hit an `Err` and terminated the collector. -/
structure DrainRes (E B : Type) where
  out : List (Except E B)
  holding : List (Nat × Except E B)
  next : Nat
  term : Bool

/-- Fuelled drain loop; `holding.length + 1` fuel always suffices since each
iteration removes the entry at `next`. -/
def drainF (E B : Type) : Nat → List (Nat × Except E B) → Nat → DrainRes E B
  | 0, h, next => ⟨[], h, next, false⟩
  | fuel + 1, h, next =>
    match lookupKey next h with
    | none => ⟨[], h, next, false⟩
    | some (Except.ok v) =>
      let d := drainF E B fuel (eraseKey next h) (next + 1)
      ⟨Except.ok v :: d.out, d.holding, d.next, d.term⟩
    | some (Except.error e) => ⟨[Except.error e], eraseKey next h, next, true⟩

/-- The drain loop of `collect` (lines 231-243). -/
def drain {E B : Type} (h : List (Nat × Except E B)) (next : Nat) : DrainRes E B :=
  drainF E B (h.length + 1) h next

/-- The receive loop of `collect`: process the arrivals in channel order;
on channel closure (`arr = []`) just return (line 225-228). -/
def collectGo {E B : Type} :
    List (Nat × Except E B) → List (Nat × Except E B) → Nat → List (Except E B)
  | [], _, _ => []
  | (i, r) :: arr, h, next =>
    (drain (insertKey i r h) next).out ++
      (if (drain (insertKey i r h) next).term then []
       else collectGo arr (drain (insertKey i r h) next).holding
         (drain (insertKey i r h) next).next)

/-- `collect` run on a complete channel history `arr` (the sequence of
`(idx, result)` pairs received before the channel closes): the sequence of
values it sends to the facade. -/
def collect {E B : Type} (arr : List (Nat × Except E B)) : List (Except E B) :=
  collectGo arr [] 0

/-!  ## ParallelDecoder facade (`parallel.rs` lines 74-92)

`read_entry` drains the current batch iterator (`reading`), otherwise
receives from the collector's channel: an `Ok` batch refills `reading`, an
`Err` is returned once, a closed channel yields `Ok(None)`.  The channel is
modelled as the list of values the collector sends, followed by closure. -/

def readEntryF (E D : Type) :
    Nat → List D → List (Except E (List D)) →
    Except E (Option D) × (List D × List (Except E (List D)))
  | _, v :: vs, c => (Except.ok (some v), (vs, c))
  | _, [], [] => (Except.ok none, ([], []))
  | 0, [], _ => (Except.ok none, ([], []))
  | fuel + 1, [], Except.ok vs :: c => readEntryF E D fuel vs c
  | _ + 1, [], Except.error e :: c => (Except.error e, ([], c))

/-- One `read_entry` call from facade state `(reading, channel)`: the returned
value and the successor state. -/
def readEntry {E D : Type} (reading : List D) (c : List (Except E (List D))) :
    Except E (Option D) × (List D × List (Except E (List D))) :=
  readEntryF E D (c.length + 1) reading c

/-- All records obtained by pulling `read_entry` until it yields `Ok(None)`
or an `Err` (the caller's loop), starting from an empty `reading`. -/
def pullChan {E D : Type} : List (Except E (List D)) → List D
  | [] => []
  | Except.ok vs :: c => vs ++ pullChan c
  | Except.error _ :: _ => []

/-- The channel history the workers produce on a run of the whole pipeline in
which nothing fails: batch `i` arrives as `(i, Ok batch_i)`.  Any permutation
of this list is a possible arrival order at the collector. -/
def arrivalsOf {E : Type} (batches : List (List (List Char))) :
    List (Nat × Except E (List (List Char))) :=
  batches.enum.map (fun p => (p.1, Except.ok p.2))

/-!  ## Single-threaded ArrayDecoder (`array_decoder.rs` lines 37-83)

`read_line` reads one line (at end of file the buffer stays empty); if the
trimmed line is `"["` it reads one more line *without* re-checking; a blank
or `"]"` trimmed line ends the stream, anything else is comma-stripped and
decoded.  `arrayRunF` is the caller's `read_entry`-until-`None` loop over the
file's lines; each iteration consumes at least one line so
`lines.length + 1` fuel suffices. -/

def arrayRunF : Nat → List (List Char) → List (List Char)
  | 0, _ => []
  | fuel + 1, lines =>
    match lines with
    | [] => []
    | l :: rest =>
      -- `read_line`: if the trimmed line is `"["`, read one more line first
      match (if trim l = ['['] then rest else l :: rest) with
      | [] => []
      | l2 :: r2 =>
        -- `s = trim l2`; blank and `"]"` lines end the stream
        if trim l2 = [] then []
        else if trim l2 = [']'] then []
        else trimCommas (trim l2) :: arrayRunF fuel r2

/-- The record sequence the single-threaded `ArrayDecoder` produces from the
given line sequence. -/
def arrayRun (lines : List (List Char)) : List (List Char) :=
  arrayRunF (lines.length + 1) lines

/-- One full single-threaded decode of a file. -/
def arrayDecode (input : List Char) : List (List Char) :=
  arrayRun (splitLines input)

/-!  ## Spec-side characterizations -/

/-- Spec-side reading of one line of the dump file: `none` for blank lines
and for the `[` / `]` wrapper tokens, otherwise the trimmed, comma-stripped
record text.  (This follows the spec's words for "non-blank JSON line"; it is
compared against the code-derived `parseChunk`.) -/
def lineRecord? (l : List Char) : Option (List Char) :=
  if trim l = ['['] then none
  else if trim l = [']'] then none
  else if trimCommas (trim l) = [] then none
  else some (trimCommas (trim l))

/-- The spec-side record sequence of a file: its non-blank, non-wrapper lines
in original order, trimmed and comma-stripped. -/
def recordLines (input : List Char) : List (List Char) :=
  (splitLines input).filterMap lineRecord?

/-- `Err` test on `Except` results. -/
def isErrR {E B : Type} : Except E B → Bool
  | Except.error _ => true
  | Except.ok _ => false

/-- Reference walk of the reorder protocol: starting at index `k`, emit the
result at each consecutive index while present, stopping at the first absent
index, or at (and including) the first `Err`. -/
def runSpec {E B : Type} (P : Nat → Option (Except E B)) : Nat → Nat → List (Except E B)
  | 0, _ => []
  | fuel + 1, k =>
    match P k with
    | none => []
    | some (Except.ok v) => Except.ok v :: runSpec P fuel (k + 1)
    | some (Except.error e) => [Except.error e]

/-- The joint lookup over the collector's current map and the results still
to arrive: the result that index `i` has or will eventually get. -/
def mergeLookup {E B : Type} (h arr : List (Nat × Except E B)) (i : Nat) :
    Option (Except E B) :=
  match lookupKey i h with
  | some r => some r
  | none => lookupKey i arr

/-- No element of the channel history is an `Err`. -/
def noErrL {E B : Type} (c : List (Except E B)) : Prop :=
  ∀ x ∈ c, isErrR x = false

/-- An `Err`, if present at all, is the last element of the channel
history. -/
def errLast {E B : Type} (c : List (Except E B)) : Prop :=
  noErrL c.dropLast

/-- The facade state after `k` calls to `read_entry` from the initial state
`s`. -/
def pullIter {E D : Type} (s : List D × List (Except E (List D))) :
    Nat → List D × List (Except E (List D))
  | 0 => s
  | k + 1 => (readEntry (pullIter s k).1 (pullIter s k).2).2

/-- The value the `(k+1)`-st call to `read_entry` returns, starting from
state `s`. -/
def pullOut {E D : Type} (s : List D × List (Except E (List D))) (k : Nat) :
    Except E (Option D) :=
  (readEntry (pullIter s k).1 (pullIter s k).2).1

/-- Every line of `s` (including a final unterminated one) is strictly
shorter than the chunk size `cs`; under this condition the chunk reader never
splits a line across blocks. -/
def linesShort (cs : Nat) (s : List Char) : Prop :=
  ∀ l ∈ splitLines s, l.length < cs

/-- No line before the last one trims to `"]"`: the array-closing token, if
present at all, is the final line.  (`parse_chunk` stops at a `"]"` line and
drops the rest of its block.) -/
def noMidClose (s : List Char) : Prop :=
  ∀ l ∈ (splitLines s).dropLast, trim l ≠ [']']

instance (cs : Nat) (s : List Char) : Decidable (linesShort cs s) :=
  inferInstanceAs (Decidable (∀ l ∈ splitLines s, l.length < cs))

instance (s : List Char) : Decidable (noMidClose s) :=
  inferInstanceAs (Decidable (∀ l ∈ (splitLines s).dropLast, trim l ≠ [']']))

instance {E B : Type} [DecidableEq E] [DecidableEq B] : DecidableEq (Except E B) := by
  intro a b
  cases a <;> cases b
  case error.error x y =>
    exact decidable_of_iff (x = y) ⟨fun h => by rw [h], fun h => by cases h; rfl⟩
  case error.ok x y => exact isFalse (fun h => by cases h)
  case ok.error x y => exact isFalse (fun h => by cases h)
  case ok.ok x y =>
    exact decidable_of_iff (x = y) ⟨fun h => by rw [h], fun h => by cases h; rfl⟩

/-!  ## Lemmas about `splitLines` -/

theorem splitLines_cons_nl (t : List Char) :
    splitLines ('\n' :: t) = ['\n'] :: splitLines t := by
  simp [splitLines]

theorem splitLines_cons_of_ne (c : Char) (t : List Char) (hc : c ≠ '\n') :
    splitLines (c :: t) =
      match splitLines t with
      | [] => [[c]]
      | l :: ls => (c :: l) :: ls := by
  simp [splitLines, hc]

theorem splitLines_nil_iff (s : List Char) : splitLines s = [] ↔ s = [] := by
  constructor
  · intro h
    cases s with
    | nil => rfl
    | cons c t =>
      by_cases hc : c = '\n'
      · subst hc; rw [splitLines_cons_nl] at h; cases h
      · rw [splitLines_cons_of_ne c t hc] at h
        cases ht : splitLines t <;> rw [ht] at h <;> cases h
  · intro h; rw [h]; rfl

theorem splitLines_flatten (s : List Char) : (splitLines s).flatten = s := by
  induction s with
  | nil => rfl
  | cons c t ih =>
    by_cases hc : c = '\n'
    · subst hc; rw [splitLines_cons_nl]; simpa using ih
    · rw [splitLines_cons_of_ne c t hc]
      cases ht : splitLines t with
      | nil =>
        have : t = [] := (splitLines_nil_iff t).1 ht
        subst this; rfl
      | cons l ls =>
        rw [ht] at ih
        simpa using ih

theorem mem_splitLines_ne_nil (s : List Char) (l : List Char)
    (hl : l ∈ splitLines s) : l ≠ [] := by
  induction s generalizing l with
  | nil => simp [splitLines] at hl
  | cons c t ih =>
    by_cases hc : c = '\n'
    · subst hc
      rw [splitLines_cons_nl] at hl
      rcases List.mem_cons.1 hl with h | h
      · subst h; simp
      · exact ih l h
    · rw [splitLines_cons_of_ne c t hc] at hl
      cases ht : splitLines t with
      | nil => rw [ht] at hl; simp at hl; subst hl; simp
      | cons l1 ls =>
        rw [ht] at hl
        rcases List.mem_cons.1 hl with h | h
        · subst h; simp
        · exact ih l (ht ▸ List.mem_cons_of_mem l1 h)

theorem splitLines_dropLast_ends (s : List Char) :
    ∀ l ∈ (splitLines s).dropLast, l.getLast? = some '\n' := by
  induction s with
  | nil => simp [splitLines]
  | cons c t ih =>
    intro l hl
    by_cases hc : c = '\n'
    · subst hc
      rw [splitLines_cons_nl] at hl
      cases ht : splitLines t with
      | nil => rw [ht] at hl; simp at hl
      | cons l1 ls =>
        rw [ht] at hl
        rw [List.dropLast_cons_of_ne_nil (by simp)] at hl
        rcases List.mem_cons.1 hl with h | h
        · subst h; rfl
        · exact ih l (ht ▸ h)
    · rw [splitLines_cons_of_ne c t hc] at hl
      cases ht : splitLines t with
      | nil => rw [ht] at hl; simp at hl
      | cons l1 ls =>
        rw [ht] at hl
        cases ls with
        | nil => simp at hl
        | cons l2 ls2 =>
          rw [List.dropLast_cons_of_ne_nil (by simp)] at hl
          rcases List.mem_cons.1 hl with h | h
          · subst h
            have hl1 : l1.getLast? = some '\n' := by
              apply ih
              rw [ht, List.dropLast_cons_of_ne_nil (by simp)]
              exact List.mem_cons_self _ _
            have hne : l1 ≠ [] := mem_splitLines_ne_nil t l1 (ht ▸ List.mem_cons_self _ _)
            rw [List.getLast?_cons, hl1]
            simp [hne]
          · apply ih
            rw [ht, List.dropLast_cons_of_ne_nil (by simp)]
            exact List.mem_cons_of_mem _ h

theorem splitLines_append (a b : List Char) (ha : a.getLast? = some '\n') :
    splitLines (a ++ b) = splitLines a ++ splitLines b := by
  induction a with
  | nil => cases ha
  | cons c t ih =>
    cases t with
    | nil =>
      have hc : c = '\n' := by simpa using ha
      subst hc
      rw [List.singleton_append, splitLines_cons_nl, splitLines_cons_nl]
      rfl
    | cons c2 t2 =>
      have ht : (c2 :: t2).getLast? = some '\n' := by
        rwa [List.getLast?_cons_cons] at ha
      have ih2 := ih ht
      by_cases hc : c = '\n'
      · subst hc
        rw [List.cons_append, splitLines_cons_nl, splitLines_cons_nl, ih2]
        rfl
      · rw [List.cons_append, splitLines_cons_of_ne c _ hc,
          splitLines_cons_of_ne c _ hc, ih2]
        cases hsp : splitLines (c2 :: t2) with
        | nil =>
          have : (c2 : Char) :: t2 = [] := (splitLines_nil_iff _).1 hsp
          cases this
        | cons l ls => rfl

theorem splitLines_noNL (x : List Char) (hx : x ≠ []) (hn : '\n' ∉ x) :
    splitLines x = [x] := by
  induction x with
  | nil => cases hx rfl
  | cons c t ih =>
    have hc : c ≠ '\n' := fun h => hn (h ▸ List.mem_cons_self c t)
    rw [splitLines_cons_of_ne c t hc]
    cases t with
    | nil => rfl
    | cons c2 t2 =>
      rw [ih (by simp) (fun h => hn (List.mem_cons_of_mem c h))]

theorem splitLines_body_nl (x : List Char) (hn : '\n' ∉ x) :
    splitLines (x ++ ['\n']) = [x ++ ['\n']] := by
  induction x with
  | nil => rfl
  | cons c t ih =>
    have hc : c ≠ '\n' := fun h => hn (h ▸ List.mem_cons_self c t)
    rw [List.cons_append, splitLines_cons_of_ne c _ hc,
      ih (fun h => hn (List.mem_cons_of_mem c h))]

theorem splitLines_unlines (ls : List (List Char)) (h : ∀ l ∈ ls, '\n' ∉ l) :
    splitLines (unlines ls) = ls.map (fun l => l ++ ['\n']) := by
  induction ls with
  | nil => rfl
  | cons l ls ih =>
    have hl : unlines (l :: ls) = (l ++ ['\n']) ++ unlines ls := by
      simp [unlines]
    rw [hl, splitLines_append _ _ (by rw [List.getLast?_concat]),
      splitLines_body_nl l (h l (List.mem_cons_self _ _)),
      ih (fun x hx => h x (List.mem_cons_of_mem _ hx))]
    rfl

/-- In a stream whose every line is shorter than `cs` but that is itself
longer than `cs`, some position in `[1, cs)` holds a newline: the backward
scan of a full buffer cannot come up empty. -/
theorem exists_interior_nl (cs : Nat) (s : List Char)
    (hshort : ∀ l ∈ splitLines s, l.length < cs) (hlong : cs < s.length) :
    ∃ q, 1 ≤ q ∧ q < cs ∧ s.get? q = some '\n' := by
  cases hL : splitLines s with
  | nil =>
    have : s = [] := (splitLines_nil_iff s).1 hL
    subst this; simp at hlong
  | cons l1 ls =>
    have hs : s = l1 ++ ls.flatten := by
      conv_lhs => rw [← splitLines_flatten s, hL]
      simp
    cases ls with
    | nil =>
      have h1 : l1.length < cs := hshort l1 (hL ▸ List.mem_cons_self _ _)
      rw [hs] at hlong; simp at hlong
      omega
    | cons l2 ls2 =>
      have h1end : l1.getLast? = some '\n' := by
        apply splitLines_dropLast_ends s l1
        rw [hL, List.dropLast_cons_of_ne_nil (by simp)]
        exact List.mem_cons_self _ _
      have h1ne : l1 ≠ [] := mem_splitLines_ne_nil s l1 (hL ▸ List.mem_cons_self _ _)
      have h1len : l1.length < cs := hshort l1 (hL ▸ List.mem_cons_self _ _)
      have h1pos : 0 < l1.length := List.length_pos.2 h1ne
      by_cases h1one : l1.length = 1
      · -- the first line is just "\n"; look at the second line
        have hl1 : l1 = ['\n'] := by
          cases l1 with
          | nil => cases h1ne rfl
          | cons a t =>
            cases t with
            | nil =>
              have : a = '\n' := by simpa using h1end
              rw [this]
            | cons b t2 => simp at h1one
        have h2ne : l2 ≠ [] :=
          mem_splitLines_ne_nil s l2 (hL ▸ List.mem_cons_of_mem _ (List.mem_cons_self _ _))
        have h2len : l2.length < cs :=
          hshort l2 (hL ▸ List.mem_cons_of_mem _ (List.mem_cons_self _ _))
        have h2pos : 0 < l2.length := List.length_pos.2 h2ne
        by_cases h2end : l2.getLast? = some '\n'
        · refine ⟨l2.length, h2pos, h2len, ?_⟩
          rw [hs, hl1]
          have : ((['\n'] : List Char) ++ (l2 :: ls2).flatten).get? l2.length
              = (l2 :: ls2).flatten.get? (l2.length - 1) := by
            rw [List.singleton_append]
            cases hn : l2.length with
            | zero => omega
            | succ m => rw [List.get?_cons_succ]; congr 1
          rw [this]
          have hfl : (l2 :: ls2).flatten = l2 ++ ls2.flatten := by simp
          rw [hfl, List.get?_append (by omega)]
          rw [List.getLast?_eq_get?] at h2end
          exact h2end
        · -- l2 cannot be an interior line, so the stream is "\n" ++ l2: too short
          cases ls2 with
          | nil =>
            rw [hs, hl1] at hlong
            simp at hlong
            omega
          | cons l3 ls3 =>
            exfalso
            apply h2end
            apply splitLines_dropLast_ends s l2
            rw [hL, List.dropLast_cons_of_ne_nil (by simp),
              List.dropLast_cons_of_ne_nil (by simp)]
            exact List.mem_cons_of_mem _ (List.mem_cons_self _ _)
      · -- the first line has length ≥ 2 and ends in '\n'
        refine ⟨l1.length - 1, by omega, by omega, ?_⟩
        rw [hs, List.get?_append (by omega)]
        rw [List.getLast?_eq_get?] at h1end
        exact h1end

/-!  ## Lemmas about the chunk reader -/

theorem lastNLScan_bounds (buf : List Char) :
    ∀ start p, lastNLScan buf start = some p → 1 ≤ p ∧ p ≤ start ∧ buf.getD p ' ' = '\n' := by
  intro start
  induction start with
  | zero => intro p h; cases h
  | succ m ih =>
    intro p h
    rw [lastNLScan] at h
    by_cases hc : buf.getD (m + 1) ' ' = '\n'
    · rw [if_pos hc] at h
      cases h
      exact ⟨by omega, le_refl _, hc⟩
    · rw [if_neg hc] at h
      obtain ⟨h1, h2, h3⟩ := ih p h
      exact ⟨h1, by omega, h3⟩

theorem lastNLScan_none (buf : List Char) :
    ∀ start, lastNLScan buf start = none →
      ∀ q, 1 ≤ q → q ≤ start → buf.getD q ' ' ≠ '\n' := by
  intro start
  induction start with
  | zero => intro _ q hq1 hq2; omega
  | succ m ih =>
    intro h q hq1 hq2
    rw [lastNLScan] at h
    by_cases hc : buf.getD (m + 1) ' ' = '\n'
    · rw [if_pos hc] at h; cases h
    · rw [if_neg hc] at h
      by_cases hq : q = m + 1
      · subst hq; exact hc
      · exact ih h q hq1 (by omega)

theorem findSplitPos_some (buf : List Char) (p : Nat) (h : findSplitPos buf = some p) :
    1 ≤ p ∧ p < buf.length ∧ buf.get? p = some '\n' := by
  obtain ⟨h1, h2, h3⟩ := lastNLScan_bounds buf (buf.length - 1) p h
  have hlen : 1 ≤ buf.length := by
    by_contra hl
    have : buf.length = 0 := by omega
    rw [this] at h2
    omega
  have hp : p < buf.length := by omega
  refine ⟨h1, hp, ?_⟩
  rw [List.getD_eq_get?] at h3
  cases hg : buf.get? p with
  | none => rw [List.get?_eq_none] at hg; omega
  | some c => rw [hg] at h3; simp at h3; rw [h3]

theorem findSplitPos_none (buf : List Char) (h : findSplitPos buf = none) :
    ∀ q, 1 ≤ q → q < buf.length → buf.get? q ≠ some '\n' := by
  intro q hq1 hq2 hget
  have := lastNLScan_none buf (buf.length - 1) h q hq1 (by omega)
  rw [List.getD_eq_get?, hget] at this
  simp at this

/-- Characterization of one `read_chunk` call that returned a block:
either it was the final partial read (stream exhausted), or the block ends at
the newline the backward scan found, or the scan found no newline at a
position `≥ 1` and the entire full buffer was emitted. -/
theorem chunkStep_cases (cs : Nat) (s b rest : List Char)
    (h : chunkStep cs s = some (b, rest)) :
    b ++ rest = s ∧ b ≠ [] ∧
      (rest = [] ∨ b.getLast? = some '\n' ∨
        (cs ≤ s.length ∧ b = s.take cs ∧ rest = s.drop cs ∧
          ∀ q, 1 ≤ q → q < b.length → b.get? q ≠ some '\n')) := by
  rw [chunkStep] at h
  by_cases h0 : min s.length cs = 0
  · rw [if_pos h0] at h; cases h
  · rw [if_neg h0] at h
    by_cases h1 : min s.length cs < cs
    · rw [if_pos h1] at h
      have hlen : min s.length cs = s.length := by omega
      rw [hlen] at h
      cases h
      refine ⟨by simp, ?_, Or.inl (by simp)⟩
      simp only [List.take_length]
      intro hb
      rw [hb] at h0
      simp at h0
    · rw [if_neg h1] at h
      have hcs : min s.length cs = cs := by omega
      have hsl : cs ≤ s.length := by omega
      have hbuf : (s.take cs).length = cs := by
        rw [List.length_take]; omega
      cases hf : findSplitPos (s.take cs) with
      | some p =>
        rw [hf] at h
        cases h
        obtain ⟨hp1, hp2, hp3⟩ := findSplitPos_some _ _ hf
        rw [hbuf] at hp2
        have htt : (s.take cs).take (p + 1) = s.take (p + 1) := by
          rw [List.take_take]
          congr 1
          omega
        refine ⟨by rw [htt]; exact List.take_append_drop _ _, ?_, ?_⟩
        · rw [htt]
          intro hb
          have h2 := congrArg List.length hb
          rw [List.length_take] at h2
          simp only [List.length_nil] at h2
          omega
        · refine Or.inr (Or.inl ?_)
          rw [List.getLast?_eq_get?]
          have hblen : ((s.take cs).take (p + 1)).length = p + 1 := by
            rw [List.length_take, hbuf]
            omega
          rw [hblen]
          simp only [Nat.add_sub_cancel]
          rw [List.get?_take (by omega)]
          exact hp3
      | none =>
        rw [hf] at h
        cases h
        refine ⟨List.take_append_drop _ _, ?_, ?_⟩
        · intro hb
          have h2 := congrArg List.length hb
          rw [hbuf] at h2
          simp only [List.length_nil] at h2
          omega
        · exact Or.inr (Or.inr ⟨hsl, rfl, rfl, findSplitPos_none _ hf⟩)

theorem chunkStep_none_iff (cs : Nat) (hcs : 1 ≤ cs) (s : List Char) :
    chunkStep cs s = none ↔ s = [] := by
  constructor
  · intro h
    rw [chunkStep] at h
    by_cases h0 : min s.length cs = 0
    · have : s.length = 0 := by omega
      exact List.length_eq_zero.1 this
    · rw [if_neg h0] at h
      by_cases h1 : min s.length cs < cs
      · rw [if_pos h1] at h; cases h
      · rw [if_neg h1] at h
        cases hf : findSplitPos (s.take cs) <;> rw [hf] at h <;> cases h
  · intro h
    subst h
    rw [chunkStep]
    simp

theorem chunkStep_rest_lt (cs : Nat) (s b rest : List Char)
    (h : chunkStep cs s = some (b, rest)) : rest.length < s.length := by
  obtain ⟨hcat, hne, _⟩ := chunkStep_cases cs s b rest h
  have := congrArg List.length hcat
  rw [List.length_append] at this
  have hb : 0 < b.length := List.length_pos.2 hne
  omega

theorem readBlocksF_congr_aux (cs : Nat) :
    ∀ (n : Nat) (s : List Char), s.length ≤ n → ∀ f f', s.length < f → s.length < f' →
      readBlocksF f cs s = readBlocksF f' cs s := by
  intro n
  induction n with
  | zero =>
    intro s hs f f' hf hf'
    obtain ⟨a, rfl⟩ : ∃ a, f = a + 1 := ⟨f - 1, by omega⟩
    obtain ⟨b2, rfl⟩ : ∃ b2, f' = b2 + 1 := ⟨f' - 1, by omega⟩
    rw [readBlocksF, readBlocksF]
    cases hc : chunkStep cs s with
    | none => rfl
    | some br =>
      have := chunkStep_rest_lt cs s br.1 br.2 (by rw [hc])
      omega
  | succ m ih =>
    intro s hs f f' hf hf'
    obtain ⟨a, rfl⟩ : ∃ a, f = a + 1 := ⟨f - 1, by omega⟩
    obtain ⟨b2, rfl⟩ : ∃ b2, f' = b2 + 1 := ⟨f' - 1, by omega⟩
    rw [readBlocksF, readBlocksF]
    cases hc : chunkStep cs s with
    | none => rfl
    | some br =>
      obtain ⟨bb, rr⟩ := br
      have hlt := chunkStep_rest_lt cs s bb rr (by rw [hc])
      show bb :: readBlocksF a cs rr = bb :: readBlocksF b2 cs rr
      rw [ih rr (by omega) a b2 (by omega) (by omega)]

theorem readBlocksF_eq (cs : Nat) (s : List Char) (f : Nat) (hf : s.length < f) :
    readBlocksF f cs s = readBlocks cs s :=
  readBlocksF_congr_aux cs s.length s (le_refl _) f (s.length + 1) hf (by omega)

theorem readBlocks_unfold (cs : Nat) (s : List Char) :
    readBlocks cs s =
      match chunkStep cs s with
      | none => []
      | some (b, rest) => b :: readBlocks cs rest := by
  rw [readBlocks, readBlocksF]
  cases hc : chunkStep cs s with
  | none => rfl
  | some br =>
    have hlt := chunkStep_rest_lt cs s br.1 br.2 (by rw [hc])
    have : readBlocksF (s.length) cs br.2 = readBlocks cs br.2 :=
      readBlocksF_eq cs br.2 s.length (by omega)
    simp only [this]

theorem chunkStep_nil (cs : Nat) : chunkStep cs [] = none := by
  rw [chunkStep]
  simp

theorem readBlocks_nil (cs : Nat) : readBlocks cs [] = [] := by
  rw [readBlocks_unfold, chunkStep_nil]

/-- Concatenating the emitted blocks reproduces the input exactly. -/
theorem readBlocks_flatten (cs : Nat) (hcs : 1 ≤ cs) :
    ∀ (n : Nat) (s : List Char), s.length ≤ n → (readBlocks cs s).flatten = s := by
  intro n
  induction n with
  | zero =>
    intro s hs
    have : s = [] := List.length_eq_zero.1 (by omega)
    subst this
    rw [readBlocks_nil]
    rfl
  | succ m ih =>
    intro s hs
    rw [readBlocks_unfold]
    cases hc : chunkStep cs s with
    | none => exact ((chunkStep_none_iff cs hcs s).1 hc).symm
    | some br =>
      obtain ⟨hcat, _, _⟩ := chunkStep_cases cs s br.1 br.2 (by rw [hc])
      have hlt := chunkStep_rest_lt cs s br.1 br.2 (by rw [hc])
      simp only [List.flatten_cons]
      rw [ih br.2 (by omega)]
      exact hcat

/-!  ## Lemmas about the parser -/

theorem dropLast_append_ne_nil {α : Type} (A B : List α) (hB : B ≠ []) :
    (A ++ B).dropLast = A ++ B.dropLast := by
  induction A with
  | nil => rfl
  | cons a A ih =>
    rw [List.cons_append, List.dropLast_cons_of_ne_nil (by simp [hB]), ih]
    rfl

theorem parseLines_append_no_close (a b : List (List Char))
    (h : ∀ l ∈ a, trim l ≠ [']']) :
    parseLines (a ++ b) = parseLines a ++ parseLines b := by
  induction a with
  | nil => rfl
  | cons l ls ih =>
    have hl : trim l ≠ [']'] := h l (List.mem_cons_self _ _)
    have ihh := ih (fun x hx => h x (List.mem_cons_of_mem _ hx))
    rw [List.cons_append, parseLines, parseLines]
    by_cases h1 : trim l = ['[']
    · rw [if_pos h1, if_pos h1, ihh]
    · rw [if_neg h1, if_neg h1, if_neg hl, if_neg hl]
      by_cases h2 : trimCommas (trim l) = []
      · rw [if_pos h2, if_pos h2, ihh]
      · rw [if_neg h2, if_neg h2, ihh]
        rfl

theorem parseLines_append_close (a b : List (List Char))
    (h : ∃ l ∈ a, trim l = [']']) :
    parseLines (a ++ b) = parseLines a := by
  induction a with
  | nil => obtain ⟨l, hl, _⟩ := h; cases hl
  | cons l ls ih =>
    rw [List.cons_append, parseLines, parseLines]
    by_cases h1 : trim l = ['[']
    · rw [if_pos h1, if_pos h1]
      apply ih
      obtain ⟨x, hx, hxe⟩ := h
      rcases List.mem_cons.1 hx with h2 | h2
      · subst h2; rw [h1] at hxe; cases hxe
      · exact ⟨x, h2, hxe⟩
    · rw [if_neg h1, if_neg h1]
      by_cases hcl : trim l = [']']
      · rw [if_pos hcl, if_pos hcl]
      · rw [if_neg hcl, if_neg hcl]
        have hrec : parseLines (ls ++ b) = parseLines ls := by
          apply ih
          obtain ⟨x, hx, hxe⟩ := h
          rcases List.mem_cons.1 hx with h2 | h2
          · subst h2; exact absurd hxe hcl
          · exact ⟨x, h2, hxe⟩
        by_cases h2 : trimCommas (trim l) = []
        · rw [if_pos h2, if_pos h2, hrec]
        · rw [if_neg h2, if_neg h2, hrec]

theorem parseLines_eq_filterMap (ls : List (List Char))
    (h : ∀ l ∈ ls.dropLast, trim l ≠ [']']) :
    parseLines ls = ls.filterMap lineRecord? := by
  induction ls with
  | nil => rfl
  | cons l ls ih =>
    have htail : ∀ x ∈ ls.dropLast, trim x ≠ [']'] := by
      intro x hx
      apply h
      cases ls with
      | nil => simp at hx
      | cons l2 ls2 =>
        rw [List.dropLast_cons_of_ne_nil (by simp)]
        exact List.mem_cons_of_mem _ hx
    have ihh := ih htail
    rw [parseLines, List.filterMap_cons]
    by_cases h1 : trim l = ['[']
    · rw [if_pos h1]
      have : lineRecord? l = none := by rw [lineRecord?]; simp [h1]
      rw [this, ihh]
    · by_cases hcl : trim l = [']']
      · rw [if_neg h1, if_pos hcl]
        cases ls with
        | nil =>
          have : lineRecord? l = none := by
            rw [lineRecord?]
            simp [h1, hcl]
          rw [this]
          rfl
        | cons l2 ls2 =>
          exfalso
          apply h l _ hcl
          rw [List.dropLast_cons_of_ne_nil (by simp)]
          exact List.mem_cons_self _ _
      · rw [if_neg h1, if_neg hcl]
        by_cases h2 : trimCommas (trim l) = []
        · rw [if_pos h2]
          have : lineRecord? l = none := by
            rw [lineRecord?]
            simp [h1, hcl, h2]
          rw [this, ihh]
        · rw [if_neg h2]
          have : lineRecord? l = some (trimCommas (trim l)) := by
            rw [lineRecord?]
            simp [h1, hcl, h2]
          rw [this, ihh]

theorem parseChunk_nil : parseChunk [] = [] := rfl

/-- Core chunking/parsing equivalence: when every line of the input is
shorter than the chunk size and no interior line is the `"]"` token, parsing
the emitted blocks one by one gives exactly the unchunked parse. -/
theorem parse_flatten_aux (cs : Nat) (hcs : 1 ≤ cs) :
    ∀ (n : Nat) (s : List Char), s.length ≤ n → linesShort cs s → noMidClose s →
      ((readBlocks cs s).map parseChunk).flatten = parseChunk s := by
  intro n
  induction n with
  | zero =>
    intro s hs _ _
    have : s = [] := List.length_eq_zero.1 (by omega)
    subst this
    rw [readBlocks_nil]
    rfl
  | succ m ih =>
    intro s hs hshort hmc
    rw [readBlocks_unfold]
    cases hc : chunkStep cs s with
    | none =>
      have : s = [] := (chunkStep_none_iff cs hcs s).1 hc
      subst this
      rfl
    | some br =>
      obtain ⟨b, rest⟩ := br
      obtain ⟨hcat, hbne, hdisj⟩ := chunkStep_cases cs s b rest (by rw [hc])
      have hlt := chunkStep_rest_lt cs s b rest (by rw [hc])
      show (parseChunk b :: (readBlocks cs rest).map parseChunk).flatten = parseChunk s
      by_cases hrest : rest = []
      · subst hrest
        rw [readBlocks_nil]
        simp only [List.map_nil, List.flatten_cons, List.flatten_nil, List.append_nil]
        rw [← hcat]
        simp
      · -- the block must end in a newline; rule out the degenerate branch
        have hbend : b.getLast? = some '\n' := by
          rcases hdisj with h | h | ⟨hle, hbeq, hreq, hnone⟩
          · exact absurd h hrest
          · exact h
          · exfalso
            have hlong : cs < s.length := by
              by_contra hno
              apply hrest
              rw [hreq, List.drop_eq_nil_iff_le]
              omega
            obtain ⟨q, hq1, hq2, hq3⟩ := exists_interior_nl cs s hshort hlong
            apply hnone q hq1
            · rw [hbeq, List.length_take]
              omega
            · rw [hbeq, List.get?_take (by omega)]
              exact hq3
        have hsplit : splitLines s = splitLines b ++ splitLines rest := by
          rw [← hcat]
          exact splitLines_append b rest hbend
        have hrne : splitLines rest ≠ [] := by
          intro hx
          exact hrest ((splitLines_nil_iff rest).1 hx)
        have hdrop : (splitLines s).dropLast = splitLines b ++ (splitLines rest).dropLast := by
          rw [hsplit, dropLast_append_ne_nil _ _ hrne]
        have hbnc : ∀ l ∈ splitLines b, trim l ≠ [']'] := by
          intro l hl
          apply hmc
          rw [hdrop]
          exact List.mem_append_left _ hl
        have hshort2 : linesShort cs rest := by
          intro l hl
          apply hshort
          rw [hsplit]
          exact List.mem_append_right _ hl
        have hmc2 : noMidClose rest := by
          intro l hl
          apply hmc
          rw [hdrop]
          exact List.mem_append_right _ hl
        rw [List.flatten_cons, ih rest (by omega) hshort2 hmc2]
        rw [parseChunk, parseChunk, parseChunk, hsplit,
          parseLines_append_no_close _ _ hbnc]

/-- Every emitted block other than the last ends with a newline, except when
the backward scan found no newline at a position `≥ 1` in the full buffer
(a logical line at least as large as the chunk). -/
theorem blocks_align_aux (cs : Nat) :
    ∀ (n : Nat) (s : List Char), s.length ≤ n →
      ∀ i b, (readBlocks cs s).get? i = some b → i + 1 < (readBlocks cs s).length →
        b.getLast? = some '\n' ∨ ∀ q, 1 ≤ q → q < b.length → b.get? q ≠ some '\n' := by
  intro n
  induction n with
  | zero =>
    intro s hs i b hget hlen
    have : s = [] := List.length_eq_zero.1 (by omega)
    subst this
    rw [readBlocks_nil] at hget
    cases hget
  | succ m ih =>
    intro s hs i b hget hlen
    rw [readBlocks_unfold] at hget hlen
    cases hc : chunkStep cs s with
    | none => rw [hc] at hget; cases hget
    | some br =>
      obtain ⟨b0, rest⟩ := br
      rw [hc] at hget hlen
      have hget2 : (b0 :: readBlocks cs rest).get? i = some b := hget
      have hlen2 : i + 1 < (b0 :: readBlocks cs rest).length := hlen
      obtain ⟨hcat, hbne, hdisj⟩ := chunkStep_cases cs s b0 rest (by rw [hc])
      have hlt := chunkStep_rest_lt cs s b0 rest (by rw [hc])
      cases i with
      | zero =>
        simp only [List.get?_cons_zero] at hget2
        cases hget2
        rcases hdisj with h | h | ⟨_, _, _, hnone⟩
        · subst h
          rw [readBlocks_nil] at hlen2
          simp at hlen2
        · exact Or.inl h
        · exact Or.inr hnone
      | succ j =>
        rw [List.get?_cons_succ] at hget2
        apply ih rest (by omega) j b hget2
        simp only [List.length_cons] at hlen2
        omega

/-!  ## Lemmas about the association-list map -/

theorem lookupKey_eq_none {α : Type} (k : Nat) (h : List (Nat × α)) :
    lookupKey k h = none ↔ k ∉ keysOf h := by
  induction h with
  | nil => simp [lookupKey, keysOf]
  | cons p t ih =>
    obtain ⟨i, v⟩ := p
    rw [lookupKey]
    by_cases hik : i = k
    · subst hik
      simp [keysOf]
    · rw [if_neg hik, ih]
      simp [keysOf, Ne.symm hik]

theorem lookupKey_mem {α : Type} (k : Nat) (v : α) (h : List (Nat × α))
    (hl : lookupKey k h = some v) : (k, v) ∈ h := by
  induction h with
  | nil => cases hl
  | cons p t ih =>
    obtain ⟨i, w⟩ := p
    rw [lookupKey] at hl
    by_cases hik : i = k
    · subst hik
      rw [if_pos rfl] at hl
      cases hl
      exact List.mem_cons_self _ _
    · rw [if_neg hik] at hl
      exact List.mem_cons_of_mem _ (ih hl)

theorem mem_lookupKey {α : Type} (k : Nat) (v : α) (h : List (Nat × α))
    (hnd : (keysOf h).Nodup) (hm : (k, v) ∈ h) : lookupKey k h = some v := by
  induction h with
  | nil => cases hm
  | cons p t ih =>
    obtain ⟨i, w⟩ := p
    simp only [keysOf, List.map_cons, List.nodup_cons] at hnd
    rcases List.mem_cons.1 hm with he | ht
    · cases he
      rw [lookupKey, if_pos rfl]
    · rw [lookupKey]
      by_cases hik : i = k
      · exfalso
        subst hik
        apply hnd.1
        simpa using List.mem_map_of_mem Prod.fst ht
      · rw [if_neg hik]
        exact ih hnd.2 ht

theorem eraseKey_not_mem {α : Type} (k : Nat) (h : List (Nat × α))
    (hk : k ∉ keysOf h) : eraseKey k h = h := by
  induction h with
  | nil => rfl
  | cons p t ih =>
    obtain ⟨i, v⟩ := p
    simp only [keysOf, List.map_cons, List.mem_cons, not_or] at hk
    rw [eraseKey, if_neg (fun he => hk.1 he.symm)]
    rw [ih (by simpa [keysOf] using hk.2)]

theorem lookupKey_eraseKey_ne {α : Type} (j k : Nat) (h : List (Nat × α))
    (hjk : j ≠ k) : lookupKey k (eraseKey j h) = lookupKey k h := by
  induction h with
  | nil => rfl
  | cons p t ih =>
    obtain ⟨i, v⟩ := p
    rw [eraseKey, lookupKey]
    by_cases hij : i = j
    · subst hij
      rw [if_pos rfl, if_neg hjk]
    · rw [if_neg hij, lookupKey]
      by_cases hik : i = k
      · rw [if_pos hik, if_pos hik]
      · rw [if_neg hik, if_neg hik, ih]

theorem eraseKey_sublist {α : Type} (k : Nat) (h : List (Nat × α)) :
    (eraseKey k h).Sublist h := by
  induction h with
  | nil => exact List.Sublist.refl _
  | cons p t ih =>
    obtain ⟨i, v⟩ := p
    rw [eraseKey]
    by_cases hik : i = k
    · rw [if_pos hik]
      exact List.Sublist.cons _ (List.Sublist.refl _)
    · rw [if_neg hik]
      exact List.Sublist.cons₂ _ ih

theorem lookupKey_eraseKey_self {α : Type} (k : Nat) (h : List (Nat × α))
    (hnd : (keysOf h).Nodup) : lookupKey k (eraseKey k h) = none := by
  induction h with
  | nil => rfl
  | cons p t ih =>
    obtain ⟨i, v⟩ := p
    rw [keysOf, List.map_cons, List.nodup_cons] at hnd
    rw [eraseKey]
    by_cases hik : i = k
    · subst hik
      rw [if_pos rfl, lookupKey_eq_none]
      exact hnd.1
    · rw [if_neg hik, lookupKey, if_neg hik]
      exact ih hnd.2

theorem eraseKey_length {α : Type} (k : Nat) (v : α) (h : List (Nat × α))
    (hl : lookupKey k h = some v) : (eraseKey k h).length + 1 = h.length := by
  induction h with
  | nil => cases hl
  | cons p t ih =>
    obtain ⟨i, w⟩ := p
    rw [lookupKey] at hl
    rw [eraseKey]
    by_cases hik : i = k
    · rw [if_pos hik]; rfl
    · rw [if_neg hik] at hl ⊢
      rw [List.length_cons, List.length_cons, ih hl]

theorem lookupKey_insertKey {α : Type} (i k : Nat) (r : α) (h : List (Nat × α)) :
    lookupKey k (insertKey i r h) = if i = k then some r else lookupKey k h := by
  rw [insertKey, lookupKey]
  by_cases hik : i = k
  · rw [if_pos hik, if_pos hik]
  · rw [if_neg hik, if_neg hik, lookupKey_eraseKey_ne i k h hik]

theorem keysOf_nodup_of_sublist {α : Type} (h₁ h₂ : List (Nat × α))
    (hs : h₁.Sublist h₂) (hnd : (keysOf h₂).Nodup) : (keysOf h₁).Nodup :=
  List.Nodup.sublist (List.Sublist.map Prod.fst hs) hnd

theorem lookupKey_perm {α : Type} (k : Nat) (h₁ h₂ : List (Nat × α))
    (hp : h₁.Perm h₂) (hnd : (keysOf h₁).Nodup) : lookupKey k h₁ = lookupKey k h₂ := by
  have hnd₂ : (keysOf h₂).Nodup := (List.Perm.nodup_iff (List.Perm.map Prod.fst hp)).1 hnd
  cases hl : lookupKey k h₁ with
  | some v =>
    exact (mem_lookupKey k v h₂ hnd₂ (hp.mem_iff.1 (lookupKey_mem k v h₁ hl))).symm
  | none =>
    symm
    rw [lookupKey_eq_none] at hl ⊢
    intro hm
    apply hl
    simp only [keysOf] at hm ⊢
    exact ((List.Perm.map Prod.fst hp).mem_iff).2 hm

/-!  ## Lemmas about the collector's drain loop -/

theorem drainF_congr {E B : Type} :
    ∀ (f f' : Nat) (h : List (Nat × Except E B)) (next : Nat),
      h.length < f → h.length < f' → drainF E B f h next = drainF E B f' h next := by
  intro f
  induction f with
  | zero => intro f' h next hf _; omega
  | succ g ih =>
    intro f' h next hf hf'
    obtain ⟨g', rfl⟩ : ∃ g', f' = g' + 1 := ⟨f' - 1, by omega⟩
    rw [drainF, drainF]
    cases hl : lookupKey next h with
    | none => rfl
    | some r =>
      cases r with
      | ok v =>
        have hlen := eraseKey_length next (Except.ok v) h hl
        rw [ih g' (eraseKey next h) (next + 1) (by omega) (by omega)]
      | error e => rfl

theorem drain_none {E B : Type} (h : List (Nat × Except E B)) (next : Nat)
    (hl : lookupKey next h = none) : drain h next = ⟨[], h, next, false⟩ := by
  rw [drain, drainF, hl]

theorem drain_error {E B : Type} (h : List (Nat × Except E B)) (next : Nat) (e : E)
    (hl : lookupKey next h = some (Except.error e)) :
    drain h next = ⟨[Except.error e], eraseKey next h, next, true⟩ := by
  rw [drain, drainF, hl]

theorem drain_ok {E B : Type} (h : List (Nat × Except E B)) (next : Nat) (v : B)
    (hl : lookupKey next h = some (Except.ok v)) :
    drain h next =
      ⟨Except.ok v :: (drain (eraseKey next h) (next + 1)).out,
        (drain (eraseKey next h) (next + 1)).holding,
        (drain (eraseKey next h) (next + 1)).next,
        (drain (eraseKey next h) (next + 1)).term⟩ := by
  conv_lhs => rw [drain, drainF, hl]
  have hlen := eraseKey_length next (Except.ok v) h hl
  rw [drainF_congr h.length ((eraseKey next h).length + 1) (eraseKey next h) (next + 1)
    (by omega) (by omega)]
  rfl

/-- Full characterization of the drain loop on a map with distinct keys:
`next` only moves forward, the drained prefix `[next, d.next)` was a
contiguous run of `Ok` entries, the loop stops at the first absent index
(`term = false`, entries `[next, d.next)` removed, output the run of `Ok`s)
or at the first `Err` (`term = true`, output ends with that `Err`). -/
theorem drain_spec {E B : Type} :
    ∀ (n : Nat) (h : List (Nat × Except E B)) (next : Nat), h.length ≤ n →
      (keysOf h).Nodup →
      next ≤ (drain h next).next ∧
      (drain h next).holding.Sublist h ∧
      (∀ k, next ≤ k → k < (drain h next).next →
        ∃ v, lookupKey k h = some (Except.ok v)) ∧
      ((drain h next).term = false →
        (∀ k, lookupKey k (drain h next).holding =
          if next ≤ k ∧ k < (drain h next).next then none else lookupKey k h) ∧
        lookupKey (drain h next).next h = none ∧
        (drain h next).out = (List.range' next ((drain h next).next - next)).filterMap
          (fun k => lookupKey k h) ∧
        (drain h next).holding.length + ((drain h next).next - next) = h.length) ∧
      ((drain h next).term = true → ∃ e,
        lookupKey (drain h next).next h = some (Except.error e) ∧
        (drain h next).out = ((List.range' next ((drain h next).next - next)).filterMap
          (fun k => lookupKey k h)) ++ [Except.error e] ∧
        (drain h next).next - next < h.length) := by
  intro n
  induction n with
  | zero =>
    intro h next hlen hnd
    have : h = [] := List.length_eq_zero.1 (by omega)
    subst this
    rw [drain_none [] next rfl]
    dsimp only
    refine ⟨le_refl _, List.Sublist.refl _, ?_, ?_, ?_⟩
    · intro k h1 h2; omega
    · intro _
      refine ⟨fun k => by rw [if_neg (by omega)], rfl, by simp, by simp⟩
    · intro hx; cases hx
  | succ m ih =>
    intro h next hlen hnd
    cases hl : lookupKey next h with
    | none =>
      rw [drain_none h next hl]
      dsimp only
      refine ⟨le_refl _, List.Sublist.refl _, ?_, ?_, ?_⟩
      · intro k h1 h2; omega
      · intro _
        refine ⟨fun k => by rw [if_neg (by omega)], hl, by simp, by omega⟩
      · intro hx; cases hx
    | some r =>
      cases r with
      | error e =>
        rw [drain_error h next e hl]
        dsimp only
        refine ⟨le_refl _, eraseKey_sublist next h, ?_, ?_, ?_⟩
        · intro k h1 h2; omega
        · intro hx; cases hx
        · intro _
          refine ⟨e, hl, by simp, ?_⟩
          have hne : h ≠ [] := by intro he; rw [he] at hl; cases hl
          have := List.length_pos.2 hne
          omega
      | ok v =>
        have hlen2 := eraseKey_length next (Except.ok v) h hl
        have hnd2 : (keysOf (eraseKey next h)).Nodup :=
          keysOf_nodup_of_sublist _ _ (eraseKey_sublist next h) hnd
        obtain ⟨ihle, ihsub, ihrun, ihtf, ihtt⟩ :=
          ih (eraseKey next h) (next + 1) (by omega) hnd2
        rw [drain_ok h next v hl]
        dsimp only
        have hlerase : ∀ k, k ≠ next →
            lookupKey k (eraseKey next h) = lookupKey k h := by
          intro k hk
          exact lookupKey_eraseKey_ne next k h (fun he => hk he.symm)
        have hself : lookupKey next (eraseKey next h) = none :=
          lookupKey_eraseKey_self next h hnd
        have hcount : (drain (eraseKey next h) (next + 1)).next - next
            = ((drain (eraseKey next h) (next + 1)).next - (next + 1)) + 1 := by omega
        have houtcast : (List.range' next
              ((drain (eraseKey next h) (next + 1)).next - next)).filterMap
              (fun k => lookupKey k h)
            = Except.ok v :: (List.range' (next + 1)
              ((drain (eraseKey next h) (next + 1)).next - (next + 1))).filterMap
              (fun k => lookupKey k (eraseKey next h)) := by
          rw [hcount, List.range'_succ, List.filterMap_cons, hl]
          dsimp only
          congr 1
          apply List.filterMap_congr
          intro k hk
          rw [List.mem_range'_1] at hk
          exact (hlerase k (by omega)).symm
        refine ⟨by omega, List.Sublist.trans ihsub (eraseKey_sublist next h), ?_, ?_, ?_⟩
        · intro k h1 h2
          by_cases hk : k = next
          · subst hk; exact ⟨v, hl⟩
          · obtain ⟨w, hw⟩ := ihrun k (by omega) h2
            exact ⟨w, (hlerase k hk) ▸ hw⟩
        · intro ht
          obtain ⟨ihmap, ihgap, ihout, ihlen⟩ := ihtf ht
          refine ⟨?_, ?_, ?_, ?_⟩
          · intro k
            by_cases hk : k = next
            · subst hk
              rw [if_pos ⟨le_refl _, by omega⟩]
              have := ihmap k
              rw [if_neg (by omega)] at this
              rw [this, hself]
            · rw [ihmap k, hlerase k hk]
              by_cases hc : next + 1 ≤ k ∧ k < (drain (eraseKey next h) (next + 1)).next
              · rw [if_pos hc, if_pos (by omega)]
              · rw [if_neg hc, if_neg (by
                  intro hx
                  apply hc
                  constructor <;> omega)]
          · rw [← hlerase _ (by omega)]
            exact ihgap
          · rw [ihout, houtcast]
          · omega
        · intro ht
          obtain ⟨e, ih1, ih2, ihlt⟩ := ihtt ht
          refine ⟨e, ?_, ?_, ?_⟩
          · rw [← hlerase _ (by omega)]
            exact ih1
          · rw [ih2, houtcast]
            rfl
          · omega

/-!  ## The collector realizes the reorder protocol -/

theorem runSpec_congr {E B : Type} (P Q : Nat → Option (Except E B)) :
    ∀ (F n : Nat), (∀ k, n ≤ k → P k = Q k) → runSpec P F n = runSpec Q F n := by
  intro F
  induction F with
  | zero => intro n _; rfl
  | succ g ih =>
    intro n hpq
    rw [runSpec, runSpec, ← hpq n (le_refl n)]
    cases P n with
    | none => rfl
    | some r =>
      cases r with
      | ok v => rw [ih (n + 1) (fun k hk => hpq k (by omega))]
      | error e => rfl

theorem runSpec_okRun {E B : Type} (P : Nat → Option (Except E B)) :
    ∀ (cnt F n : Nat), cnt ≤ F →
      (∀ k, n ≤ k → k < n + cnt → ∃ v, P k = some (Except.ok v)) →
      runSpec P F n =
        (List.range' n cnt).filterMap P ++ runSpec P (F - cnt) (n + cnt) := by
  intro cnt
  induction cnt with
  | zero =>
    intro F n _ _
    simp
  | succ g ih =>
    intro F n hF hrun
    obtain ⟨v, hv⟩ := hrun n (le_refl n) (by omega)
    obtain ⟨F', rfl⟩ : ∃ F', F = F' + 1 := ⟨F - 1, by omega⟩
    rw [runSpec, hv, List.range'_succ, List.filterMap_cons, hv]
    dsimp only
    rw [ih F' (n + 1) (by omega) (fun k h1 h2 => hrun k (by omega) (by omega))]
    have h1 : F' + 1 - (g + 1) = F' - g := by omega
    have h2 : n + 1 + g = n + (g + 1) := by omega
    rw [h1, h2]
    rfl

/-- The collector run from an intermediate state: if the keys still to come
and the keys already held are distinct and all `≥ next`, with no entry at
`next` itself, then the output is exactly the reorder-protocol walk over the
joint map. -/
theorem collectGo_spec {E B : Type} :
    ∀ (arr h : List (Nat × Except E B)) (next F : Nat),
      (keysOf h ++ keysOf arr).Nodup →
      (∀ k ∈ keysOf h, next ≤ k) →
      (∀ k ∈ keysOf arr, next ≤ k) →
      lookupKey next h = none →
      h.length + arr.length + 1 ≤ F →
      collectGo arr h next = runSpec (mergeLookup h arr) F next := by
  intro arr
  induction arr with
  | nil =>
    intro h next F hnd hKH _ hgap hF
    obtain ⟨F', rfl⟩ : ∃ F', F = F' + 1 := ⟨F - 1, by omega⟩
    rw [collectGo, runSpec]
    have : mergeLookup h [] next = none := by
      rw [mergeLookup, hgap]
      rfl
    rw [this]
  | cons p arr2 ih =>
    intro h next F hnd hKH hKA hgap hF
    obtain ⟨i, r⟩ := p
    have hkeys : keysOf ((i, r) :: arr2) = i :: keysOf arr2 := rfl
    rw [hkeys] at hnd hKA
    have hiKH : i ∉ keysOf h := by
      rw [List.nodup_append] at hnd
      exact fun hm => hnd.2.2 hm (List.mem_cons_self _ _)
    have hiA2 : i ∉ keysOf arr2 := by
      rw [List.nodup_append, List.nodup_cons] at hnd
      exact hnd.2.1.1
    have hins : insertKey i r h = (i, r) :: h := by
      rw [insertKey, eraseKey_not_mem i h hiKH]
    have hkeys1 : keysOf (insertKey i r h) = i :: keysOf h := by
      rw [hins]; rfl
    have hnd1 : (keysOf (insertKey i r h) ++ keysOf arr2).Nodup := by
      rw [hkeys1, List.cons_append]
      have hperm : (keysOf h ++ i :: keysOf arr2).Perm
          (i :: (keysOf h ++ keysOf arr2)) := List.perm_middle
      exact (List.Perm.nodup_iff hperm).1 hnd
    have hnd1h : (keysOf (insertKey i r h)).Nodup := by
      rw [List.nodup_append] at hnd1
      exact hnd1.1
    have hKH1 : ∀ k ∈ keysOf (insertKey i r h), next ≤ k := by
      intro k hk
      rw [hkeys1] at hk
      rcases List.mem_cons.1 hk with hk | hk
      · rw [hk]; exact hKA i (List.mem_cons_self _ _)
      · exact hKH k hk
    have hdisj1 : ∀ k, k ∈ keysOf (insertKey i r h) → k ∈ keysOf arr2 → False := by
      intro k h1 h2
      rw [List.nodup_append] at hnd1
      exact hnd1.2.2 h1 h2
    have hlen1 : (insertKey i r h).length = h.length + 1 := by
      rw [hins]; rfl
    have hlarr : ((i, r) :: arr2).length = arr2.length + 1 := rfl
    -- characterize the drain that follows this arrival
    obtain ⟨dle, dsub, drun, dtf, dtt⟩ :=
      drain_spec (insertKey i r h).length (insertKey i r h) next (le_refl _) hnd1h
    have hmerge1 : ∀ k, mergeLookup h ((i, r) :: arr2) k =
        mergeLookup (insertKey i r h) arr2 k := by
      intro k
      rw [mergeLookup, mergeLookup, hins, lookupKey]
      by_cases hik : i = k
      · subst hik
        rw [if_pos rfl]
        rw [(lookupKey_eq_none i h).2 hiKH]
        rw [lookupKey, if_pos rfl]
      · rw [if_neg hik, lookupKey, if_neg hik]
    have hrunmerge : ∀ k, next ≤ k → k < (drain (insertKey i r h) next).next →
        ∃ v, mergeLookup (insertKey i r h) arr2 k = some (Except.ok v) := by
      intro k h1 h2
      obtain ⟨v, hv⟩ := drun k h1 h2
      exact ⟨v, by rw [mergeLookup, hv]⟩
    have houtmerge : ((List.range' next ((drain (insertKey i r h) next).next - next)).filterMap
          (fun k => lookupKey k (insertKey i r h)))
        = (List.range' next ((drain (insertKey i r h) next).next - next)).filterMap
          (mergeLookup (insertKey i r h) arr2) := by
      apply List.filterMap_congr
      intro k hk
      rw [List.mem_range'_1] at hk
      obtain ⟨v, hv⟩ := drun k (by omega) (by omega)
      rw [hv, mergeLookup, hv]
    rw [collectGo]
    rw [runSpec_congr _ _ F next (fun k _ => hmerge1 k)]
    cases hterm : (drain (insertKey i r h) next).term with
    | true =>
      rw [if_pos rfl, List.append_nil]
      obtain ⟨e, herr, hout, hlt⟩ := dtt hterm
      rw [runSpec_okRun (mergeLookup (insertKey i r h) arr2)
        ((drain (insertKey i r h) next).next - next) F next (by omega)
        (fun k h1 h2 => hrunmerge k h1 (by omega))]
      rw [hout, houtmerge]
      congr 1
      have hFpos : 1 ≤ F - ((drain (insertKey i r h) next).next - next) := by omega
      obtain ⟨F2, hF2⟩ : ∃ F2, F - ((drain (insertKey i r h) next).next - next) = F2 + 1 :=
        ⟨F - ((drain (insertKey i r h) next).next - next) - 1, by omega⟩
      rw [hF2]
      have hnn : next + ((drain (insertKey i r h) next).next - next)
          = (drain (insertKey i r h) next).next := by omega
      rw [hnn, runSpec]
      have : mergeLookup (insertKey i r h) arr2 (drain (insertKey i r h) next).next
          = some (Except.error e) := by
        rw [mergeLookup, herr]
      rw [this]
    | false =>
      rw [if_neg (by simp)]
      obtain ⟨dmap, dgap, dout, dlen⟩ := dtf hterm
      have hKH2 : ∀ k ∈ keysOf (drain (insertKey i r h) next).holding,
          (drain (insertKey i r h) next).next ≤ k := by
        intro k hk
        have hk2 : lookupKey k (drain (insertKey i r h) next).holding ≠ none := by
          intro hx
          rw [lookupKey_eq_none] at hx
          exact hx hk
        have := dmap k
        by_cases hc : next ≤ k ∧ k < (drain (insertKey i r h) next).next
        · rw [if_pos hc] at this
          exact absurd this hk2
        · rw [if_neg hc] at this
          have hk3 : k ∈ keysOf (insertKey i r h) := by
            by_contra hx
            exact hk2 (this.trans ((lookupKey_eq_none k _).2 hx))
          have := hKH1 k hk3
          omega
      have hKA2 : ∀ k ∈ keysOf arr2, (drain (insertKey i r h) next).next ≤ k := by
        intro k hk
        by_contra hx
        push_neg at hx
        obtain ⟨v, hv⟩ := drun k (hKA k (List.mem_cons_of_mem _ hk)) hx
        have : k ∈ keysOf (insertKey i r h) := by
          by_contra hy
          rw [(lookupKey_eq_none k _).2 hy] at hv
          cases hv
        exact hdisj1 k this hk
      have hnd2 : (keysOf (drain (insertKey i r h) next).holding ++ keysOf arr2).Nodup := by
        apply List.Nodup.sublist _ hnd1
        exact List.Sublist.append_right (List.Sublist.map _ dsub) _
      have hgap2 : lookupKey (drain (insertKey i r h) next).next
          (drain (insertKey i r h) next).holding = none := by
        rw [dmap, if_neg (by omega)]
        exact dgap
      have hmerge2 : ∀ k, (drain (insertKey i r h) next).next ≤ k →
          mergeLookup (insertKey i r h) arr2 k =
          mergeLookup (drain (insertKey i r h) next).holding arr2 k := by
        intro k hk
        rw [mergeLookup, mergeLookup, dmap k, if_neg (by omega)]
      rw [runSpec_okRun (mergeLookup (insertKey i r h) arr2)
        ((drain (insertKey i r h) next).next - next) F next (by omega)
        (fun k h1 h2 => hrunmerge k h1 (by omega))]
      rw [dout, houtmerge]
      congr 1
      have hnn : next + ((drain (insertKey i r h) next).next - next)
          = (drain (insertKey i r h) next).next := by omega
      rw [hnn]
      rw [runSpec_congr _ _ _ _ (fun k hk => hmerge2 k hk)]
      exact ih (drain (insertKey i r h) next).holding
        (drain (insertKey i r h) next).next
        (F - ((drain (insertKey i r h) next).next - next))
        hnd2 hKH2 hKA2 hgap2 (by omega)

/-- `collect` on any complete channel history with distinct indices: the
output is the reorder-protocol walk over the arrived results, starting at
index 0. -/
theorem collect_runSpec {E B : Type} (arr : List (Nat × Except E B))
    (hnd : (keysOf arr).Nodup) :
    collect arr = runSpec (fun i => lookupKey i arr) (arr.length + 1) 0 := by
  rw [collect]
  rw [collectGo_spec arr [] 0 (arr.length + 1) (by simpa [keysOf] using hnd)
    (by simp [keysOf]) (fun k _ => Nat.zero_le k) rfl (by simp)]
  apply runSpec_congr
  intro k _
  rw [mergeLookup]
  rfl

/-!  ## Consequences for complete, error-free and error-carrying histories -/

theorem lookupKey_range' {α : Type} (res : Nat → α) :
    ∀ (cnt j k : Nat),
      lookupKey k ((List.range' j cnt).map (fun i => (i, res i))) =
        if j ≤ k ∧ k < j + cnt then some (res k) else none := by
  intro cnt
  induction cnt with
  | zero =>
    intro j k
    rw [if_neg (by omega)]
    rfl
  | succ g ih =>
    intro j k
    rw [List.range'_succ, List.map_cons, lookupKey]
    by_cases hjk : j = k
    · subst hjk
      rw [if_pos rfl, if_pos (by omega)]
    · rw [if_neg hjk, ih (j + 1) k]
      by_cases hc : j + 1 ≤ k ∧ k < j + 1 + g
      · rw [if_pos hc, if_pos (by omega)]
      · rw [if_neg hc, if_neg (by
          intro hx
          exact hc (by omega))]

theorem keysOf_range'_map {α : Type} (res : Nat → α) (cnt j : Nat) :
    keysOf ((List.range' j cnt).map (fun i => (i, res i))) = List.range' j cnt := by
  rw [keysOf, List.map_map]
  have : (Prod.fst ∘ fun i => ((i, res i) : Nat × α)) = id := by
    funext i; rfl
  rw [this, List.map_id]

theorem runSpec_find {E B : Type} (n : Nat) (res : Nat → Except E B) :
    ∀ (F j : Nat), j ≤ n → n - j < F →
      runSpec (fun i => if i < n then some (res i) else none) F j =
        (match (List.range' j (n - j)).find? (fun i => isErrR (res i)) with
          | none => (List.range' j (n - j)).map res
          | some jj => ((List.range' j (jj - j)).map res) ++ [res jj]) := by
  intro F
  induction F with
  | zero => intro j _ hF; omega
  | succ g ih =>
    intro j hj hF
    by_cases hjn : j = n
    · subst hjn
      rw [runSpec, if_neg (by omega)]
      simp
    · have hlt : j < n := by omega
      have hcnt : n - j = (n - (j + 1)) + 1 := by omega
      rw [runSpec, if_pos hlt]
      cases hres : res j with
      | error e =>
        rw [hcnt, List.range'_succ, List.find?_cons]
        have : isErrR (res j) = true := by rw [hres]; rfl
        rw [this]
        dsimp only
        have : j - j = 0 := by omega
        rw [this]
        simp [hres]
      | ok v =>
        rw [hcnt, List.range'_succ, List.find?_cons]
        have : isErrR (res j) = false := by rw [hres]; rfl
        rw [this]
        dsimp only
        rw [ih (j + 1) (by omega) (by omega)]
        cases hfind : (List.range' (j + 1) (n - (j + 1))).find?
            (fun i => isErrR (res i)) with
        | none =>
          dsimp only
          rw [List.map_cons, hres]
        | some jj =>
          have hjj : j + 1 ≤ jj := by
            have hmem := List.mem_of_find?_eq_some hfind
            rw [List.mem_range'_1] at hmem
            omega
          dsimp only
          have h2 : jj - j = (jj - (j + 1)) + 1 := by omega
          rw [h2, List.range'_succ, List.map_cons, hres]
          rfl

/-- The collector on a complete channel history carrying results `res i` for
each index `i < n`, arriving in any order: the output is the `Ok` run up to
the least erroring index (inclusive), or all of the results when none
errs. -/
theorem collect_complete {E B : Type} (n : Nat) (res : Nat → Except E B)
    (arr : List (Nat × Except E B))
    (hperm : arr.Perm ((List.range n).map (fun i => (i, res i)))) :
    collect arr =
      (match (List.range n).find? (fun i => isErrR (res i)) with
        | none => (List.range n).map res
        | some j => ((List.range j).map res) ++ [res j]) := by
  have hkeys0 : keysOf ((List.range n).map (fun i => (i, res i)))
      = List.range' 0 n := by
    rw [List.range_eq_range']
    exact keysOf_range'_map res n 0
  have hnd0 : (keysOf ((List.range n).map (fun i => (i, res i)))).Nodup := by
    rw [hkeys0]
    exact List.nodup_range' _ _
  have hnd : (keysOf arr).Nodup := by
    have := List.Perm.map (Prod.fst (β := Except E B)) hperm
    exact (List.Perm.nodup_iff this).2 hnd0
  have hlen : arr.length = n := by
    rw [List.Perm.length_eq hperm, List.length_map, List.length_range]
  rw [collect_runSpec arr hnd]
  rw [runSpec_congr _ (fun i => if i < n then some (res i) else none) _ 0 ?_]
  · rw [hlen]
    have := runSpec_find n res (n + 1) 0 (by omega) (by omega)
    simpa [List.range_eq_range'] using this
  · intro k _
    rw [lookupKey_perm k arr _ hperm hnd]
    rw [List.range_eq_range', lookupKey_range' res n 0 k]
    dsimp only
    by_cases hk : k < n
    · rw [if_pos hk, if_pos (show 0 ≤ k ∧ k < 0 + n by omega)]
    · rw [if_neg hk, if_neg (show ¬(0 ≤ k ∧ k < 0 + n) by omega)]

/-- Keys of an indexed-batch history: the consecutive indices. -/
theorem keysOf_enumFrom_map {B C : Type} (f : B → C) :
    ∀ (bs : List B) (j : Nat),
      keysOf ((List.enumFrom j bs).map (fun p => (p.1, f p.2))) =
        List.range' j bs.length := by
  intro bs
  induction bs with
  | nil => intro j; rfl
  | cons b t ih =>
    intro j
    rw [List.enumFrom_cons, List.map_cons, List.length_cons, List.range'_succ]
    rw [keysOf, List.map_cons] at *
    rw [show ((j, f b) : Nat × C).1 = j from rfl]
    congr 1
    exact ih (j + 1)

theorem runSpec_enum_ok {E B : Type} :
    ∀ (bs : List B) (j F : Nat), bs.length < F →
      runSpec (fun i =>
          lookupKey i ((List.enumFrom j bs).map
            (fun p => ((p.1, Except.ok p.2) : Nat × Except E B))))
        F j = bs.map Except.ok := by
  intro bs
  induction bs with
  | nil =>
    intro j F hF
    obtain ⟨g, rfl⟩ : ∃ g, F = g + 1 := ⟨F - 1, by omega⟩
    have hcon : runSpec (fun i =>
        lookupKey i ((List.enumFrom j ([] : List B)).map
          (fun p => ((p.1, Except.ok p.2) : Nat × Except E B)))) (g + 1) j
        = runSpec (fun i => (none : Option (Except E B))) (g + 1) j :=
      runSpec_congr _ _ _ _ (fun k _ => rfl)
    rw [List.map_nil, hcon, runSpec]
  | cons b t ih =>
    intro j F hF
    obtain ⟨g, rfl⟩ : ∃ g, F = g + 1 := ⟨F - 1, by omega⟩
    rw [runSpec]
    have hhead : lookupKey j ((List.enumFrom j (b :: t)).map
        (fun p => ((p.1, Except.ok p.2) : Nat × Except E B))) = some (Except.ok b) := by
      rw [List.enumFrom_cons, List.map_cons, lookupKey, if_pos rfl]
    rw [hhead]
    rw [runSpec_congr _ (fun i =>
        lookupKey i ((List.enumFrom (j + 1) t).map
          (fun p => ((p.1, Except.ok p.2) : Nat × Except E B))))
      g (j + 1) ?_]
    · rw [ih (j + 1) g (by simpa using hF)]
      rfl
    · intro k hk
      rw [List.enumFrom_cons, List.map_cons, lookupKey, if_neg (by omega)]

/-- An all-`Ok` complete history in any order: the collector emits all
batches in ascending index order. -/
theorem collect_all_ok {E B : Type} (bs : List B) (arr : List (Nat × Except E B))
    (hperm : arr.Perm (bs.enum.map (fun p => (p.1, Except.ok p.2)))) :
    collect arr = bs.map Except.ok := by
  have hkeys0 : keysOf (bs.enum.map (fun p =>
      ((p.1, Except.ok p.2) : Nat × Except E B))) = List.range' 0 bs.length := by
    rw [List.enum]
    exact keysOf_enumFrom_map _ bs 0
  have hnd0 : (keysOf (bs.enum.map (fun p =>
      ((p.1, Except.ok p.2) : Nat × Except E B)))).Nodup := by
    rw [hkeys0]
    exact List.nodup_range' _ _
  have hnd : (keysOf arr).Nodup := by
    have := List.Perm.map (Prod.fst (β := Except E B)) hperm
    exact (List.Perm.nodup_iff this).2 hnd0
  have hlen : arr.length = bs.length := by
    rw [List.Perm.length_eq hperm, List.length_map, List.enum_length]
  rw [collect_runSpec arr hnd]
  rw [runSpec_congr _ (fun i =>
      lookupKey i ((List.enumFrom 0 bs).map (fun p => (p.1, Except.ok p.2))))
    _ 0 ?_]
  · rw [hlen]
    exact runSpec_enum_ok bs 0 (bs.length + 1) (by omega)
  · intro k _
    rw [lookupKey_perm k arr _ hperm hnd, List.enum]

/-- Flattening the facade's pulls over an all-`Ok` channel. -/
theorem pullChan_oks {E D : Type} (bs : List (List D)) :
    pullChan (E := E) (bs.map Except.ok) = bs.flatten := by
  induction bs with
  | nil => rfl
  | cons b t ih =>
    rw [List.map_cons, pullChan, ih, List.flatten_cons]

/-- The record stream of the whole pipeline on an error-free run: any
arrival order of the indexed batches yields the flattened batch list. -/
theorem pullChan_collect_perm {E D : Type} (bs : List (List D))
    (arr : List (Nat × Except E (List D)))
    (hperm : arr.Perm (bs.enum.map (fun p => (p.1, Except.ok p.2)))) :
    pullChan (collect arr) = bs.flatten := by
  rw [collect_all_ok bs arr hperm, pullChan_oks]

/-!  ## Facade behaviour (`read_entry`) -/

theorem readEntry_cons {E D : Type} (v : D) (vs : List D)
    (c : List (Except E (List D))) :
    readEntry (v :: vs) c = (Except.ok (some v), (vs, c)) := by
  rw [readEntry]
  cases hc : c.length + 1 with
  | zero => omega
  | succ g => rfl

theorem readEntry_nil_nil {E D : Type} :
    readEntry ([] : List D) ([] : List (Except E (List D))) =
      (Except.ok none, ([], [])) := rfl

theorem readEntry_ok {E D : Type} (vs : List D) (c : List (Except E (List D))) :
    readEntry ([] : List D) (Except.ok vs :: c) = readEntry vs c := by
  rw [readEntry, readEntry]
  show readEntryF E D (c.length + 1) vs c = readEntryF E D (c.length + 1) vs c
  rfl

theorem readEntry_err {E D : Type} (e : E) (c : List (Except E (List D))) :
    readEntry ([] : List D) (Except.error e :: c) =
      (Except.error e, ([], c)) := by
  rw [readEntry]
  rfl

theorem errLast_tail {E B : Type} (x : Except E B) (c : List (Except E B))
    (h : errLast (x :: c)) : errLast c := by
  cases c with
  | nil => intro y hy; simp at hy
  | cons y t =>
    intro z hz
    apply h
    rw [List.dropLast_cons_of_ne_nil (by simp)]
    exact List.mem_cons_of_mem _ hz

theorem errLast_err_nil {E B : Type} (e : E) (c : List (Except E B))
    (h : errLast (Except.error e :: c)) : c = [] := by
  cases c with
  | nil => rfl
  | cons y t =>
    exfalso
    have := h (Except.error e) (by
      rw [List.dropLast_cons_of_ne_nil (by simp)]
      exact List.mem_cons_self _ _)
    cases this

/-- If the channel carries its only possible `Err` last, then a `read_entry`
call that returns an `Err` leaves the facade in the drained terminal state. -/
theorem readEntry_error_state {E D : Type} :
    ∀ (c : List (Except E (List D))) (r : List D) (e : E)
      (s' : List D × List (Except E (List D))),
      errLast c → readEntry r c = (Except.error e, s') → s' = ([], []) := by
  intro c
  induction c with
  | nil =>
    intro r e s' _ hre
    cases r with
    | nil => rw [readEntry_nil_nil] at hre; cases congrArg Prod.fst hre
    | cons v vs => rw [readEntry_cons] at hre; cases congrArg Prod.fst hre
  | cons x c2 ih =>
    intro r e s' hel hre
    cases r with
    | cons v vs => rw [readEntry_cons] at hre; cases congrArg Prod.fst hre
    | nil =>
      cases x with
      | ok vs =>
        rw [readEntry_ok] at hre
        exact ih vs e s' (errLast_tail _ _ hel) hre
      | error e2 =>
        rw [readEntry_err] at hre
        have := errLast_err_nil e2 c2 hel
        subst this
        exact (congrArg Prod.snd hre).symm

/-- `read_entry` preserves the `errLast` property of the channel. -/
theorem readEntry_errLast {E D : Type} :
    ∀ (c : List (Except E (List D))) (r : List D),
      errLast c → errLast (readEntry r c).2.2 := by
  intro c
  induction c with
  | nil =>
    intro r _
    cases r with
    | nil => rw [readEntry_nil_nil]; intro y hy; simp at hy
    | cons v vs => rw [readEntry_cons]; intro y hy; simp at hy
  | cons x c2 ih =>
    intro r hel
    cases r with
    | cons v vs => rw [readEntry_cons]; exact hel
    | nil =>
      cases x with
      | ok vs =>
        rw [readEntry_ok]
        exact ih vs (errLast_tail _ _ hel)
      | error e2 =>
        rw [readEntry_err]
        have := errLast_err_nil e2 c2 hel
        subst this
        intro y hy
        simp at hy

theorem runSpec_errLast {E B : Type} (P : Nat → Option (Except E B)) :
    ∀ (F n : Nat), errLast (runSpec P F n) := by
  intro F
  induction F with
  | zero => intro n y hy; simp [runSpec] at hy
  | succ g ih =>
    intro n
    rw [runSpec]
    cases hp : P n with
    | none => intro y hy; simp at hy
    | some r =>
      cases r with
      | error e => intro y hy; simp at hy
      | ok v =>
        cases hr : runSpec P g (n + 1) with
        | nil => intro y hy; simp at hy
        | cons z t =>
          intro y hy
          rw [List.dropLast_cons_of_ne_nil (by simp)] at hy
          rcases List.mem_cons.1 hy with hy | hy
          · subst hy; rfl
          · exact ih (n + 1) y (hr ▸ hy)

/-- The collector never sends anything after an `Err`: in its output an
`Err` can only be the last element. -/
theorem collect_errLast {E B : Type} (arr : List (Nat × Except E B))
    (hnd : (keysOf arr).Nodup) : errLast (collect arr) := by
  rw [collect_runSpec arr hnd]
  exact runSpec_errLast _ _ _

theorem pullIter_absorb {E D : Type} :
    ∀ (k : Nat), pullIter (([], []) : List D × List (Except E (List D))) k = ([], []) := by
  intro k
  induction k with
  | zero => rfl
  | succ g ih =>
    rw [pullIter, ih]
    rw [readEntry_nil_nil]

theorem pullIter_errLast {E D : Type}
    (c : List (Except E (List D))) (hel : errLast c) :
    ∀ (k : Nat), errLast (pullIter ([], c) k).2 := by
  intro k
  induction k with
  | zero => exact hel
  | succ g ih =>
    rw [pullIter]
    exact readEntry_errLast _ _ ih

/-!  ## Lemmas about the single-threaded `ArrayDecoder` -/

theorem arrayRunF_nil (f : Nat) : arrayRunF f [] = [] := by
  cases f <;> rfl

theorem arrayRunF_cons_unfold (f : Nat) (l : List Char) (rest : List (List Char)) :
    arrayRunF (f + 1) (l :: rest) =
      match (if trim l = ['['] then rest else l :: rest) with
      | [] => []
      | l2 :: r2 =>
        if trim l2 = [] then []
        else if trim l2 = [']'] then []
        else trimCommas (trim l2) :: arrayRunF f r2 := rfl

theorem arrayRunF_congr :
    ∀ (f f' : Nat) (lines : List (List Char)),
      lines.length < f → lines.length < f' → arrayRunF f lines = arrayRunF f' lines := by
  intro f
  induction f with
  | zero => intro f' lines hf _; omega
  | succ g ih =>
    intro f' lines hf hf'
    obtain ⟨g', rfl⟩ : ∃ g', f' = g' + 1 := ⟨f' - 1, by omega⟩
    cases lines with
    | nil => rw [arrayRunF_nil, arrayRunF_nil]
    | cons l rest =>
      simp only [List.length_cons] at hf hf'
      rw [arrayRunF_cons_unfold, arrayRunF_cons_unfold]
      by_cases hl : trim l = ['[']
      · rw [if_pos hl]
        cases rest with
        | nil => rfl
        | cons l2 r2 =>
          simp only [List.length_cons] at hf hf'
          dsimp only
          by_cases h2 : trim l2 = []
          · rw [if_pos h2, if_pos h2]
          · rw [if_neg h2, if_neg h2]
            by_cases h3 : trim l2 = [']']
            · rw [if_pos h3, if_pos h3]
            · rw [if_neg h3, if_neg h3,
                ih g' r2 (by omega) (by omega)]
      · rw [if_neg hl]
        dsimp only
        by_cases h2 : trim l = []
        · rw [if_pos h2, if_pos h2]
        · rw [if_neg h2, if_neg h2]
          by_cases h3 : trim l = [']']
          · rw [if_pos h3, if_pos h3]
          · rw [if_neg h3, if_neg h3,
              ih g' rest (by omega) (by omega)]

theorem arrayRun_nil : arrayRun [] = [] := rfl

theorem arrayRun_stop_blank (l : List Char) (rest : List (List Char))
    (h2 : trim l = []) : arrayRun (l :: rest) = [] := by
  rw [arrayRun, List.length_cons, arrayRunF_cons_unfold]
  have hl : trim l ≠ ['['] := by rw [h2]; intro hx; cases hx
  rw [if_neg hl]
  dsimp only
  rw [if_pos h2]

theorem arrayRun_stop_close (l : List Char) (rest : List (List Char))
    (h3 : trim l = [']']) : arrayRun (l :: rest) = [] := by
  rw [arrayRun, List.length_cons, arrayRunF_cons_unfold]
  have hl : trim l ≠ ['['] := by rw [h3]; intro hx; cases hx
  rw [if_neg hl]
  dsimp only
  have h2 : trim l ≠ [] := by rw [h3]; intro hx; cases hx
  rw [if_neg h2, if_pos h3]

theorem arrayRun_rec (l : List Char) (rest : List (List Char))
    (h1 : trim l ≠ ['[']) (h2 : trim l ≠ []) (h3 : trim l ≠ [']']) :
    arrayRun (l :: rest) = trimCommas (trim l) :: arrayRun rest := by
  rw [arrayRun, List.length_cons, arrayRunF_cons_unfold, if_neg h1]
  dsimp only
  rw [if_neg h2, if_neg h3]
  rfl

theorem arrayRun_open (l0 : List Char) (lines : List (List Char))
    (h : trim l0 = ['[']) :
    arrayRun (l0 :: lines) =
      (match lines with
        | [] => []
        | l2 :: r2 =>
          if trim l2 = [] then []
          else if trim l2 = [']'] then []
          else trimCommas (trim l2) :: arrayRun r2) := by
  rw [arrayRun, List.length_cons, arrayRunF_cons_unfold, if_pos h]
  cases lines with
  | nil => rfl
  | cons l2 r2 =>
    dsimp only
    by_cases h2 : trim l2 = []
    · rw [if_pos h2, if_pos h2]
    · rw [if_neg h2, if_neg h2]
      by_cases h3 : trim l2 = [']']
      · rw [if_pos h3, if_pos h3]
      · rw [if_neg h3, if_neg h3]
        rw [arrayRunF_congr ((l2 :: r2).length + 1) (r2.length + 1) r2
          (by simp only [List.length_cons]; omega) (by omega)]
        rfl

/-- The single-threaded decoder on record lines followed by an optional
closing `"]"` line. -/
theorem arrayRun_body (ls cb : List (List Char))
    (hls : ∀ l ∈ ls, trim l ≠ [] ∧ trim l ≠ ['['] ∧ trim l ≠ [']'])
    (hcb : cb = [] ∨ ∃ lz, cb = [lz] ∧ trim lz = [']']) :
    arrayRun (ls ++ cb) = ls.map (fun l => trimCommas (trim l)) := by
  induction ls with
  | nil =>
    rcases hcb with h | ⟨lz, rfl, hz⟩
    · rw [h]; rfl
    · rw [List.nil_append, List.map_nil]
      exact arrayRun_stop_close lz [] hz
  | cons l ls2 ih =>
    obtain ⟨h2, h1, h3⟩ := hls l (List.mem_cons_self _ _)
    rw [List.cons_append, arrayRun_rec _ _ h1 h2 h3, List.map_cons,
      ih (fun x hx => hls x (List.mem_cons_of_mem _ hx))]

/-- The single-threaded decoder on a canonical dump: optional `"["` first
line, record lines, optional `"]"` last line. -/
theorem arrayRun_canonical (ob ls cb : List (List Char))
    (hob : ob = [] ∨ ∃ l0, ob = [l0] ∧ trim l0 = ['['])
    (hls : ∀ l ∈ ls, trim l ≠ [] ∧ trim l ≠ ['['] ∧ trim l ≠ [']'])
    (hcb : cb = [] ∨ ∃ lz, cb = [lz] ∧ trim lz = [']']) :
    arrayRun (ob ++ ls ++ cb) = ls.map (fun l => trimCommas (trim l)) := by
  rcases hob with h | ⟨l0, rfl, h0⟩
  · rw [h, List.nil_append]
    exact arrayRun_body ls cb hls hcb
  · have hshape : ([l0] ++ ls) ++ cb = l0 :: (ls ++ cb) := by simp
    rw [hshape, arrayRun_open l0 (ls ++ cb) h0]
    cases ls with
    | nil =>
      rcases hcb with h | ⟨lz, rfl, hz⟩
      · rw [h]; rfl
      · rw [List.nil_append, List.map_nil]
        dsimp only
        have h2 : trim lz ≠ [] := by rw [hz]; intro hx; cases hx
        rw [if_neg h2, if_pos hz]
    | cons l ls2 =>
      obtain ⟨h2, h1, h3⟩ := hls l (List.mem_cons_self _ _)
      rw [List.cons_append]
      dsimp only
      rw [if_neg h2, if_neg h3, List.map_cons,
        arrayRun_body ls2 cb (fun x hx => hls x (List.mem_cons_of_mem _ hx)) hcb]

/-!  ## Characterization of `trim` and `trim_end_matches(',')` -/

theorem dropWhile_length_le {α : Type} (p : α → Bool) (l : List α) :
    (l.dropWhile p).length ≤ l.length :=
  List.IsSuffix.length_le (List.dropWhile_suffix p)

theorem dropWhileEnd_length_le (p : Char → Bool) (l : List Char) :
    (dropWhileEnd p l).length ≤ l.length := by
  rw [dropWhileEnd, List.length_reverse]
  have := dropWhile_length_le p l.reverse
  rw [List.length_reverse] at this
  exact this

theorem trim_eq_self_start (s : List Char) (h : trim s = s) :
    s.dropWhile isWS = s := by
  apply List.IsSuffix.eq_of_length (List.dropWhile_suffix isWS)
  have h1 : (trim s).length ≤ (s.dropWhile isWS).length := by
    rw [trim]
    exact dropWhileEnd_length_le isWS (s.dropWhile isWS)
  have h2 := dropWhile_length_le isWS s
  rw [h] at h1
  omega

theorem trim_eq_self_end (s : List Char) (h : trim s = s) :
    s.reverse.dropWhile isWS = s.reverse := by
  have hs := trim_eq_self_start s h
  have h2 : dropWhileEnd isWS s = s := by
    conv_lhs => rw [← hs]
    rw [← trim, h]
  rw [dropWhileEnd] at h2
  rw [← List.reverse_inj, List.reverse_reverse] at h2
  exact h2

theorem head_not_of_dropWhile_self {α : Type} (p : α → Bool) (c : α) (t : List α)
    (h : (c :: t).dropWhile p = c :: t) : p c = false := by
  rw [List.dropWhile_cons] at h
  by_cases hc : p c = true
  · rw [if_pos hc] at h
    have := dropWhile_length_le p t
    have := congrArg List.length h
    simp at this
    omega
  · simpa using hc

theorem dropWhile_append_self {α : Type} (p : α → Bool) (s t : List α)
    (hs : s.dropWhile p = s) (hne : s ≠ []) :
    (s ++ t).dropWhile p = s ++ t := by
  cases s with
  | nil => cases hne rfl
  | cons c s2 =>
    have hc := head_not_of_dropWhile_self p c s2 hs
    rw [List.cons_append, List.dropWhile_cons, hc]
    simp

theorem dropWhile_replicate_append {α : Type} (p : α → Bool) (a : α) (ha : p a = true)
    (y : List α) : ∀ k, (List.replicate k a ++ y).dropWhile p = y.dropWhile p := by
  intro k
  induction k with
  | zero => rfl
  | succ g ih =>
    rw [List.replicate_succ, List.cons_append, List.dropWhile_cons, ha]
    simpa using ih

/-- `trim` of a line made of trimmed record text, trailing commas and the
newline: the whitespace goes, the commas stay. -/
theorem trim_body_commas (s : List Char) (k : Nat)
    (hts : trim s = s) (hne : s ≠ []) :
    trim (s ++ List.replicate k ',' ++ ['\n']) = s ++ List.replicate k ',' := by
  have hstart := trim_eq_self_start s hts
  have hend := trim_eq_self_end s hts
  rw [trim]
  have h1 : (s ++ List.replicate k ',' ++ ['\n']).dropWhile isWS
      = s ++ List.replicate k ',' ++ ['\n'] := by
    rw [List.append_assoc]
    exact dropWhile_append_self isWS s _ hstart hne
  rw [h1, dropWhileEnd]
  have hrev : (s ++ List.replicate k ',' ++ ['\n']).reverse
      = '\n' :: (List.replicate k ',' ++ s.reverse) := by
    rw [List.reverse_append, List.reverse_append]
    simp [List.reverse_replicate]
  rw [hrev, List.dropWhile_cons]
  have hnl : isWS '\n' = true := rfl
  rw [hnl, if_pos rfl]
  have h2 : (List.replicate k ',' ++ s.reverse).dropWhile isWS
      = List.replicate k ',' ++ s.reverse := by
    cases k with
    | zero => simpa using hend
    | succ g =>
      apply dropWhile_append_self isWS _ _ _ (by simp)
      apply List.IsSuffix.eq_of_length (List.dropWhile_suffix isWS)
      rw [List.replicate_succ, List.dropWhile_cons]
      have : isWS ',' = false := rfl
      rw [this]
      simp
  rw [h2]
  rw [List.reverse_append, List.reverse_replicate, List.reverse_reverse]

/-- `trim_end_matches(',')` removes every trailing comma. -/
theorem trimCommas_body (s : List Char) (k : Nat)
    (hlast : s.getLast? ≠ some ',') :
    trimCommas (s ++ List.replicate k ',') = s := by
  rw [trimCommas, dropWhileEnd, List.reverse_append, List.reverse_replicate]
  rw [dropWhile_replicate_append _ ',' (by simp) s.reverse k]
  have hself : s.reverse.dropWhile (fun c => c = ',') = s.reverse := by
    cases hrev : s.reverse with
    | nil => rfl
    | cons c t =>
      have hc : c ≠ ',' := by
        intro hc
        apply hlast
        rw [← List.head?_reverse, hrev, hc]
        rfl
      rw [List.dropWhile_cons, if_neg (by simp [hc])]
  rw [hself, List.reverse_reverse]

/-!  ## Helpers for the degenerate-input and wrapper claims -/

theorem readBlocks_single (cs : Nat) (s : List Char) (hne : s ≠ [])
    (hlt : s.length < cs) : readBlocks cs s = [s] := by
  have hstep : chunkStep cs s = some (s, []) := by
    rw [chunkStep]
    have hmin : min s.length cs = s.length := by omega
    have hpos : 0 < s.length := List.length_pos.2 hne
    rw [hmin, if_neg (by omega), if_pos (by omega)]
    rw [List.take_length, List.drop_length]
  rw [readBlocks_unfold, hstep]
  show s :: readBlocks cs [] = [s]
  rw [readBlocks_nil]

theorem flatten_parse_nil (blocks : List (List Char))
    (h : ∀ b ∈ blocks, parseChunk b = []) :
    ((blocks.map parseChunk).flatten) = [] := by
  induction blocks with
  | nil => rfl
  | cons b t ih =>
    rw [List.map_cons, List.flatten_cons, h b (List.mem_cons_self _ _),
      List.nil_append]
    exact ih (fun x hx => h x (List.mem_cons_of_mem _ hx))

theorem runSpec_no_err {E B : Type} (P : Nat → Option (Except E B))
    (hP : ∀ k v, P k = some v → isErrR v = false) :
    ∀ (F n : Nat), ∀ x ∈ runSpec P F n, isErrR x = false := by
  intro F
  induction F with
  | zero => intro n x hx; simp [runSpec] at hx
  | succ g ih =>
    intro n x hx
    rw [runSpec] at hx
    cases hp : P n with
    | none => rw [hp] at hx; simp at hx
    | some r =>
      rw [hp] at hx
      cases r with
      | error e =>
        have := hP n (Except.error e) hp
        simp [isErrR] at this
      | ok v =>
        rcases List.mem_cons.1 hx with hx | hx
        · subst hx; rfl
        · exact ih (n + 1) x hx

theorem pullIter_shift {E D : Type} (s : List D × List (Except E (List D))) :
    ∀ (a b : Nat), pullIter s (a + b) = pullIter (pullIter s a) b := by
  intro a b
  induction b with
  | zero => rfl
  | succ g ih =>
    have h1 : a + (g + 1) = (a + g) + 1 := by omega
    rw [h1, pullIter, ih]
    rfl

theorem filterMap_all_some {α β : Type} (f : α → Option β) (g : α → β)
    (l : List α) (h : ∀ x ∈ l, f x = some (g x)) : l.filterMap f = l.map g := by
  induction l with
  | nil => rfl
  | cons x t ih =>
    rw [List.filterMap_cons, h x (List.mem_cons_self _ _), List.map_cons,
      ih (fun y hy => h y (List.mem_cons_of_mem _ hy))]

/-- The whole error-free pipeline: blocks of the file, decoded in any worker
order, collected and pulled by the caller, give exactly the file's record
lines — provided no line reaches the chunk size and the `"]"` token is not
an interior line. -/
theorem pipeline_records (E : Type) (input : List Char)
    (arr : List (Nat × Except E (List (List Char))))
    (h1 : linesShort INPUT_CHUNK_SIZE input) (h2 : noMidClose input)
    (h3 : List.Perm arr (arrivalsOf (pipelineBatches input))) :
    pullChan (collect arr) = recordLines input := by
  have harr : arrivalsOf (E := E) (pipelineBatches input)
      = (pipelineBatches input).enum.map (fun p => (p.1, Except.ok p.2)) := rfl
  rw [harr] at h3
  rw [pullChan_collect_perm (pipelineBatches input) arr h3]
  rw [pipelineBatches]
  rw [parse_flatten_aux INPUT_CHUNK_SIZE (by norm_num [INPUT_CHUNK_SIZE])
    input.length input (le_refl _) h1 h2]
  rw [parseChunk, parseLines_eq_filterMap _ h2, recordLines]

/-!  ## The claims -/

/-- Claim C1, counterexample: on the file `"a\n]\nb\n"` the pipeline emits
only the record `a` — `parse_chunk` stops at the interior `"]"` line and
drops the rest of its block — while the non-blank record lines of the file
are `a` and `b`, so the produced record sequence does not equal the sequence
of non-blank JSON lines in line order. -/
theorem c1_counterexample :
    pullChan (collect (arrivalsOf (E := Unit)
        (pipelineBatches ['a', '\n', ']', '\n', 'b', '\n'])))
      = [['a']] ∧
    recordLines ['a', '\n', ']', '\n', 'b', '\n'] = [['a'], ['b']] ∧
    ([['a']] : List (List Char)) ≠ [['a'], ['b']] :=
  ⟨by decide, by decide, by decide⟩

/-- Claim C1, amended: for every input file in which no line reaches the
chunk size and no line before the last is the `"]"` token, and for every
arrival order of the indexed batches at the collector (hence for every
worker count), the records pulled through `read_entry` are exactly the
non-blank, non-wrapper lines of the file, trimmed and comma-stripped, in
original line order. -/
theorem c1_ordered_records (E : Type) (input : List Char)
    (arr : List (Nat × Except E (List (List Char))))
    (h1 : linesShort INPUT_CHUNK_SIZE input) (h2 : noMidClose input)
    (h3 : List.Perm arr (arrivalsOf (pipelineBatches input))) :
    pullChan (collect arr) = recordLines input :=
  pipeline_records E input arr h1 h2 h3

/-- Claim C1, witness at the file `"a\nb\n"`. -/
theorem c1_witness :
    pullChan (collect (arrivalsOf (E := Unit)
        (pipelineBatches ['a', '\n', 'b', '\n'])))
      = recordLines ['a', '\n', 'b', '\n'] :=
  c1_ordered_records Unit _ _ (by decide) (by decide) (List.Perm.refl _)

/-- Claim C2, counterexample: with chunk size 1 the line `"ab"` is split
across two blocks and decoded as the two records `a` and `b`, while the
unchunked decode yields the single record `ab`: the chunked pipeline does
not match the unchunked decode for every chunk size from 1 up. -/
theorem c2_counterexample :
    ((readBlocks 1 ['a', 'b', '\n']).map parseChunk).flatten = [['a'], ['b']] ∧
    parseChunk ['a', 'b', '\n'] = [['a', 'b']] ∧
    ([['a'], ['b']] : List (List Char)) ≠ [['a', 'b']] :=
  ⟨by decide, by decide, by decide⟩

/-- Claim C2, amended: decoding through the chunked pipeline
(`ChunkReader::read_chunk` feeding `ChunkParser::parse_chunk`) equals the
single unchunked decode for every chunk size strictly larger than every
line of the file, provided no line before the last is the `"]"` token. -/
theorem c2_chunked_eq_unchunked (cs : Nat) (input : List Char) (hcs : 1 ≤ cs)
    (h1 : linesShort cs input) (h2 : noMidClose input) :
    ((readBlocks cs input).map parseChunk).flatten = parseChunk input :=
  parse_flatten_aux cs hcs input.length input (le_refl _) h1 h2

/-- Claim C2, witness: chunk size 4 on `"a\nb\n"` (a newline falls exactly
on the chunk boundary). -/
theorem c2_witness :
    ((readBlocks 4 ['a', '\n', 'b', '\n']).map parseChunk).flatten
      = parseChunk ['a', '\n', 'b', '\n'] :=
  c2_chunked_eq_unchunked 4 ['a', '\n', 'b', '\n'] (by decide) (by decide) (by decide)

/-- Claim C3, counterexample: when the channel closes while the reorder
buffer holds only index 1 (index 0 missing — a gap), `collect` returns
without emitting anything: the caller's next `read_entry` sees a closed
channel and reports clean end-of-stream `Ok(None)`.  No error of any kind —
no `OrderingInvariantViolation` exists in the code — is surfaced; the
batch at index 1 is silently dropped. -/
theorem c3_counterexample :
    collect ([(1, Except.ok [(42 : Nat)])] : List (Nat × Except Unit (List Nat))) = [] ∧
    readEntry ([] : List Nat)
        (collect ([(1, Except.ok [(42 : Nat)])] : List (Nat × Except Unit (List Nat))))
      = (Except.ok none, ([], [])) :=
  ⟨by decide, by decide⟩

/-- Claim C3, amended: if the inbound channel closes while the reorder
buffer still has a gap, the collector simply returns — the stream ends as a
clean (possibly truncated) end-of-stream.  No error is surfaced on an
all-`Ok` history, and with a gap at index 0 nothing at all is emitted. -/
theorem c3_silent_on_gap (E B : Type) (arr : List (Nat × Except E B))
    (hnd : (keysOf arr).Nodup) (hok : ∀ p ∈ arr, isErrR p.2 = false) :
    (∀ x ∈ collect arr, isErrR x = false) ∧
    (lookupKey 0 arr = none → collect arr = []) := by
  constructor
  · rw [collect_runSpec arr hnd]
    apply runSpec_no_err
    intro k v hv
    exact hok (k, v) (lookupKey_mem k v arr hv)
  · intro hgap
    rw [collect_runSpec arr hnd, runSpec, hgap]

/-- Claim C3, witness: indices 1 and 2 arrive, index 0 never does. -/
theorem c3_witness :
    (∀ x ∈ collect ([(1, Except.ok 7), (2, Except.ok 8)]
        : List (Nat × Except Unit Nat)), isErrR x = false) ∧
    (lookupKey 0 ([(1, Except.ok 7), (2, Except.ok 8)]
        : List (Nat × Except Unit Nat)) = none →
      collect ([(1, Except.ok 7), (2, Except.ok 8)]
        : List (Nat × Except Unit Nat)) = []) :=
  c3_silent_on_gap Unit Nat _ (by decide) (by decide)

/-- Claim C4, counterexample: the line `"x,,"` decodes to the record `x` —
`trim_end_matches(',')` removes *all* trailing commas — whereas stripping
exactly one comma would hand `"x,"` to the per-record decode. -/
theorem c4_counterexample :
    parseChunk ['x', ',', ',', '\n'] = [['x']] ∧
    (['x'] : List Char) ≠ ['x', ','] :=
  ⟨by decide, by decide⟩

/-- Claim C4, amended: the worker's normalization strips *all* trailing
commas: a trimmed record text `s` (no surrounding whitespace, not a wrapper
token, not ending in a comma) followed by any number `k` of trailing commas
decodes to exactly the record `s`. -/
theorem c4_strips_all_commas (s : List Char) (k : Nat)
    (hts : trim s = s) (hne : s ≠ []) (hnl : '\n' ∉ s)
    (hlast : s.getLast? ≠ some ',')
    (hbr1 : s ≠ ['[']) (hbr2 : s ≠ [']']) :
    parseChunk (s ++ List.replicate k ',' ++ ['\n']) = [s] := by
  have hnl2 : '\n' ∉ s ++ List.replicate k ',' := by
    intro hm
    rcases List.mem_append.1 hm with hm | hm
    · exact hnl hm
    · have := List.eq_of_mem_replicate hm
      cases this
  rw [parseChunk, splitLines_body_nl _ hnl2]
  have htrim := trim_body_commas s k hts hne
  have htc := trimCommas_body s k hlast
  have hbrA : s ++ List.replicate k ',' ≠ ['['] := by
    cases k with
    | zero => simpa using hbr1
    | succ g =>
      intro hx
      have h1 : (s ++ List.replicate (g + 1) ',').getLast? = some ',' := by
        rw [List.replicate_succ' g ',', ← List.append_assoc, List.getLast?_concat]
      rw [hx] at h1
      cases h1
  have hbrB : s ++ List.replicate k ',' ≠ [']'] := by
    cases k with
    | zero => simpa using hbr2
    | succ g =>
      intro hx
      have h1 : (s ++ List.replicate (g + 1) ',').getLast? = some ',' := by
        rw [List.replicate_succ' g ',', ← List.append_assoc, List.getLast?_concat]
      rw [hx] at h1
      cases h1
  rw [parseLines, htrim, if_neg hbrA, if_neg hbrB, htc, if_neg hne]
  rfl

/-- Claim C4, witness: `"x,,"` with two trailing commas decodes to `x`. -/
theorem c4_witness :
    parseChunk (['x'] ++ List.replicate 2 ',' ++ ['\n']) = [['x']] :=
  c4_strips_all_commas ['x'] 2 (by decide) (by decide) (by decide) (by decide)
    (by decide) (by decide)

/-- Claim C5: after `read_entry` has returned an `Err` once, every
subsequent call returns `Ok(None)`: the collector sends at most one `Err`,
always last, after which the facade sits on a drained state and a closed
channel, for every channel history with distinct indices (hence for every
worker count and arrival order). -/
theorem c5_single_error_then_none (E D : Type)
    (arr : List (Nat × Except E (List D))) (hnd : (keysOf arr).Nodup)
    (i j : Nat) (e : E) (hij : i < j)
    (hi : pullOut (([], collect arr)) i = Except.error e) :
    pullOut (([], collect arr)) j = Except.ok none := by
  have hel : errLast (collect arr) := collect_errLast arr hnd
  have heli : errLast (pullIter ([], collect arr) i).2 := pullIter_errLast _ hel i
  have hstate : pullIter ([], collect arr) (i + 1) = ([], []) := by
    rw [pullIter]
    exact readEntry_error_state _ _ e _ heli (by rw [← hi]; rfl)
  obtain ⟨d, rfl⟩ : ∃ d, j = (i + 1) + d := ⟨j - (i + 1), by omega⟩
  rw [pullOut, pullIter_shift, hstate, pullIter_absorb]
  rfl

/-- Claim C5, witness: one erroring batch; the second pull is `Ok(None)`. -/
theorem c5_witness :
    pullOut (([], collect ([(0, Except.error 3)]
        : List (Nat × Except Nat (List Nat))))) 1 = Except.ok none :=
  c5_single_error_then_none Nat Nat [(0, Except.error 3)] (by decide) 0 1 3
    (by decide) (by decide)

/-- Claim C6: the collector's invariant.  On a complete history of results
`res i` for indices `0..n` arriving in any order, the output is: the `Ok`
results of every index below the least erroring index `j`, in ascending
order, each exactly once, followed by the error at `j` — no lower-index
result is ever skipped in favor of a later error — or simply all results in
ascending order when none errs. -/
theorem c6_collector_order (E B : Type) (n : Nat) (res : Nat → Except E B)
    (arr : List (Nat × Except E B))
    (hperm : arr.Perm ((List.range n).map (fun i => (i, res i)))) :
    collect arr =
      (match (List.range n).find? (fun i => isErrR (res i)) with
        | none => (List.range n).map res
        | some j => ((List.range j).map res) ++ [res j]) :=
  collect_complete n res arr hperm

/-- Claim C6, witness: three results arriving out of order with an error at
index 1: the `Ok` at index 0 is emitted first, then the error; index 2 is
never emitted. -/
theorem c6_witness :
    collect ([(2, Except.ok 2), (0, Except.ok 0), (1, Except.error 5)]
        : List (Nat × Except Nat Nat)) = [Except.ok 0, Except.error 5] := by
  rw [c6_collector_order Nat Nat 3
    (fun i => if i = 1 then Except.error 5 else Except.ok i) _ (by decide)]
  decide

/-- Claim C7, counterexample: with chunk size 1 the input `"a\n"` is
emitted as the two blocks `"a"` and `"\n"`: the first block is not the
last one and does not end with a newline — the line `"a\n"` is split
across two blocks. -/
theorem c7_counterexample :
    readBlocks 1 ['a', '\n'] = [['a'], ['\n']] ∧
    (['a'] : List Char).getLast? ≠ some '\n' :=
  ⟨by decide, by decide⟩

/-- Claim C7, amended: every block emitted by `read_chunk` other than the
last either ends with a newline byte, or contains no newline at any
position `≥ 1` (the degenerate emission of a full buffer in which the
backward scan found no newline: a logical line at least as long as the
chunk, which the reader does split). -/
theorem c7_blocks_newline_or_unsplit (cs : Nat) (s : List Char) (i : Nat)
    (b : List Char) (hget : (readBlocks cs s).get? i = some b)
    (hlen : i + 1 < (readBlocks cs s).length) :
    b.getLast? = some '\n' ∨ ∀ q, 1 ≤ q → q < b.length → b.get? q ≠ some '\n' :=
  blocks_align_aux cs s.length s (le_refl _) i b hget hlen

/-- Claim C7, witness: chunk size 4 on `"ab\ncd"`: the non-final block
`"ab\n"` ends with the newline. -/
theorem c7_witness :
    (['a', 'b', '\n'] : List Char).getLast? = some '\n' ∨
    ∀ q, 1 ≤ q → q < (['a', 'b', '\n'] : List Char).length →
      (['a', 'b', '\n'] : List Char).get? q ≠ some '\n' :=
  c7_blocks_newline_or_unsplit 4 ['a', 'b', '\n', 'c', 'd'] 0 ['a', 'b', '\n']
    (by decide) (by decide)

/-- Claim C8: the input `"[\n]\n"` decodes to zero records with clean
end-of-stream through the whole pipeline, for every chunk size and every
arrival order; and for every sequence of newline-free lines, the bare form
decodes (by `parse_chunk`) identically to the form wrapped in a first line
`[` and a last line `]`. -/
theorem c8_empty_and_wrapper :
    (∀ (cs : Nat) (arr : List (Nat × Except Unit (List (List Char)))), 1 ≤ cs →
      List.Perm arr (arrivalsOf
        ((readBlocks cs ['[', '\n', ']', '\n']).map parseChunk)) →
      pullChan (collect arr) = []) ∧
    (∀ ls : List (List Char), (∀ l ∈ ls, '\n' ∉ l) →
      parseChunk (unlines (['['] :: ls ++ [[']']])) = parseChunk (unlines ls)) := by
  constructor
  · intro cs arr hcs hperm
    have harr : arrivalsOf (E := Unit)
        ((readBlocks cs ['[', '\n', ']', '\n']).map parseChunk)
        = ((readBlocks cs ['[', '\n', ']', '\n']).map parseChunk).enum.map
            (fun p => (p.1, Except.ok p.2)) := rfl
    rw [harr] at hperm
    rw [pullChan_collect_perm _ arr hperm]
    apply flatten_parse_nil
    by_cases h5 : 5 ≤ cs
    · rw [readBlocks_single cs _ (by decide)
        (by simp only [List.length_cons, List.length_nil]; omega)]
      intro b hb
      rw [List.mem_singleton] at hb
      subst hb
      decide
    · have hc : cs = 1 ∨ cs = 2 ∨ cs = 3 ∨ cs = 4 := by omega
      rcases hc with rfl | rfl | rfl | rfl <;> decide
  · intro ls hnl
    have hlines : splitLines (unlines (['['] :: ls ++ [[']']]))
        = (['['] :: ls ++ [[']']]).map (fun l => l ++ ['\n']) := by
      apply splitLines_unlines
      intro l hl
      rcases List.mem_cons.1 hl with rfl | hl
      · decide
      · rcases List.mem_append.1 hl with hl | hl
        · exact hnl l hl
        · rw [List.mem_singleton] at hl
          subst hl
          decide
    rw [parseChunk, parseChunk, hlines, splitLines_unlines ls hnl,
      List.map_append, List.map_cons, List.cons_append]
    rw [parseLines, if_pos (by decide : trim (['['] ++ ['\n']) = ['['])]
    by_cases hex : ∃ l ∈ ls.map (fun l => l ++ ['\n']), trim l = [']']
    · rw [parseLines_append_close _ _ hex]
    · push_neg at hex
      rw [parseLines_append_no_close _ _ hex]
      have hcl : parseLines (List.map (fun l => l ++ ['\n']) [[']']]) = [] := by
        decide
      rw [hcl, List.append_nil]

/-- Claim C8, witness: chunk size 1 on `"[\n]\n"`, and the wrapper
equivalence at the single record line `a`. -/
theorem c8_witness :
    pullChan (collect (arrivalsOf (E := Unit)
        ((readBlocks 1 ['[', '\n', ']', '\n']).map parseChunk))) = [] ∧
    parseChunk (unlines (['['] :: [['a']] ++ [[']']]))
      = parseChunk (unlines [['a']]) :=
  ⟨c8_empty_and_wrapper.1 1 _ (by decide) (List.Perm.refl _),
   c8_empty_and_wrapper.2 [['a']] (by decide)⟩

/-- Claim C9, counterexample: on the input `"a\n\nb\n"` (an interior blank
line) the single-threaded `ArrayDecoder` stops at the blank line and yields
only `a`, while the parallel pipeline skips blank lines and yields `a` and
`b`: the two decoders do not agree on inputs with interior blank lines. -/
theorem c9_counterexample :
    arrayDecode ['a', '\n', '\n', 'b', '\n'] = [['a']] ∧
    pullChan (collect (arrivalsOf (E := Unit)
        (pipelineBatches ['a', '\n', '\n', 'b', '\n']))) = [['a'], ['b']] ∧
    ([['a']] : List (List Char)) ≠ [['a'], ['b']] :=
  ⟨by decide, by decide, by decide⟩

/-- Claim C9, amended: on canonical dumps — an optional `"["` first line,
then record lines (non-blank after trimming, not wrapper tokens, non-blank
after comma-stripping), then an optional `"]"` last line, every line
shorter than the chunk size — the single-threaded decoder and the parallel
pipeline produce identical record sequences, for every arrival order (hence
every worker count). -/
theorem c9_single_parallel_agree (E : Type) (input : List Char)
    (ob ls cb : List (List Char))
    (arr : List (Nat × Except E (List (List Char))))
    (hsplit : splitLines input = ob ++ ls ++ cb)
    (hob : ob = [] ∨ ∃ l0, ob = [l0] ∧ trim l0 = ['['])
    (hcb : cb = [] ∨ ∃ lz, cb = [lz] ∧ trim lz = [']'])
    (hls : ∀ l ∈ ls, trim l ≠ [] ∧ trim l ≠ ['['] ∧ trim l ≠ [']'] ∧
      trimCommas (trim l) ≠ [])
    (hshort : linesShort INPUT_CHUNK_SIZE input)
    (hperm : List.Perm arr (arrivalsOf (pipelineBatches input))) :
    pullChan (collect arr) = arrayDecode input := by
  have hmem3 : ∀ l, l ∈ ob ++ ls → trim l ≠ [']'] := by
    intro l hl
    rcases List.mem_append.1 hl with hl | hl
    · rcases hob with rfl | ⟨l0, rfl, h0⟩
      · simp at hl
      · rw [List.mem_singleton] at hl
        subst hl
        rw [h0]
        intro hx
        cases hx
    · exact (hls l hl).2.2.1
  have hmc : noMidClose input := by
    intro l hl
    rw [hsplit] at hl
    rcases hcb with rfl | ⟨lz, rfl, hz⟩
    · rw [List.append_nil] at hl
      exact hmem3 l ((List.dropLast_sublist _).subset hl)
    · rw [List.dropLast_concat] at hl
      exact hmem3 l hl
  rw [pipeline_records E input arr hshort hmc hperm, recordLines, hsplit]
  rw [List.filterMap_append, List.filterMap_append]
  have hob0 : ob.filterMap lineRecord? = [] := by
    rcases hob with rfl | ⟨l0, rfl, h0⟩
    · rfl
    · rw [List.filterMap_cons]
      have : lineRecord? l0 = none := by
        rw [lineRecord?, if_pos h0]
      rw [this]
      rfl
  have hcb0 : cb.filterMap lineRecord? = [] := by
    rcases hcb with rfl | ⟨lz, rfl, hz⟩
    · rfl
    · rw [List.filterMap_cons]
      have : lineRecord? lz = none := by
        rw [lineRecord?, if_neg (by rw [hz]; intro hx; cases hx), if_pos hz]
      rw [this]
      rfl
  have hls0 : ls.filterMap lineRecord? = ls.map (fun l => trimCommas (trim l)) := by
    apply filterMap_all_some
    intro l hl
    obtain ⟨h2, h1, h3, h4⟩ := hls l hl
    rw [lineRecord?, if_neg h1, if_neg h3, if_neg h4]
  rw [hob0, hcb0, hls0, List.nil_append, List.append_nil]
  rw [arrayDecode, hsplit]
  exact (arrayRun_canonical ob ls cb hob
    (fun l hl => ⟨(hls l hl).1, (hls l hl).2.1, (hls l hl).2.2.1⟩) hcb).symm

/-- Claim C9, witness: the canonical dump `"[\na\n]\n"`. -/
theorem c9_witness :
    pullChan (collect (arrivalsOf (E := Unit)
        (pipelineBatches ['[', '\n', 'a', '\n', ']', '\n'])))
      = arrayDecode ['[', '\n', 'a', '\n', ']', '\n'] :=
  c9_single_parallel_agree Unit _ [['[', '\n']] [['a', '\n']] [[']', '\n']] _
    (by decide) (Or.inr ⟨_, rfl, by decide⟩) (Or.inr ⟨_, rfl, by decide⟩)
    (by decide) (by decide) (List.Perm.refl _)

/-- Claim C10: concatenating the blocks emitted by successive
`read_chunk` calls, in emission order until `None`, reproduces the input
byte stream exactly — the leftover carried between reads is re-emitted at
the front of the next block, no byte is lost, duplicated or reordered. -/
theorem c10_chunk_concat (cs : Nat) (input : List Char) (hcs : 1 ≤ cs) :
    (readBlocks cs input).flatten = input :=
  readBlocks_flatten cs hcs input.length input (le_refl _)

/-- Claim C10, witness: chunk size 1 on `"ab"`. -/
theorem c10_witness : (readBlocks 1 ['a', 'b']).flatten = ['a', 'b'] :=
  c10_chunk_concat 1 ['a', 'b'] (by decide)

end EdsmArrayDecoder
